import Mathlib

set_option autoImplicit false

/-!
Verification of the `webpack-stats` repository: a shallow embedding of the
`meshed` graph engine (graph model, inversion, traversal, projection) and the
`webpack-q` domain operations (chunk attribution, entrypoint traversal,
paths-to-chunk, JSON serialization), with theorems settling the frozen claims.

Modelling conventions:
* Rust `HashSet` values become `Finset`; `HashMap` collections become
  association lists (`List`) whose iteration order stands in for the map's
  unspecified order (every claim proved here is order-insensitive, or is
  about a single concrete run).
* Machine integers (`u32` chunk ids) carry no arithmetic in the modelled
  code, so they are embedded as `Nat` / generic identity types.
* The traversal engine runs on explicit fuel; Rust's `execute` loops until
  the queue drains, and the theorems prove the chosen fuel suffices.
-/

namespace WebpackStats

/-- Pathing of a traversal: BFS pops the queue front, DFS pops the back
(`Pathing` in meshed/src/graph/traversal.rs). -/
inductive Pathing where
| bfs
| dfs
deriving DecidableEq

/-- Traversal mode (`Mode` in meshed/src/graph/traversal.rs). -/
inductive Mode where
| acyclic
| simple
deriving DecidableEq

/-- Callback instruction (`Instruction<R>` in meshed/src/graph/traversal.rs).
`Continue` is spelled `cont` because `continue` is reserved in Lean. -/
inductive Instruction (R : Type) where
| halt (r : R)
| backtrack (r : R)
| skip (r : R)
| cont (r : R)

/-- Per-visit traversal metadata (`TraversalMeta` in traversal.rs): the depth
counter plus the one slot of its type-indexed annotation bag that the modelled
operations touch, the `Vec<(I, I)>` path annotation read by `paths_to_chunk`.
In the source the bag is shared by reference between a parent meta and the
child metas it spawns; none of the modelled callbacks ever writes to it, so
copying the value at spawn time is observationally identical to sharing.
The separate `path: Rc<Cell<Vec<I>>>` field is never used by any operation
and is omitted. -/
structure TMeta (I : Type) where
  depth : Nat
  pathAnn : List (I × I)
deriving DecidableEq

/-- Traversal log (`TraversalLog<I>` in traversal.rs): visited node ids and
directed (origin, target) edge pairs, both hash sets. -/
structure TLog (I : Type) where
  nodes : Finset I
  edges : Finset (I × I)
deriving DecidableEq

/-- The empty log (`TraversalLog::default`). -/
def TLog.empty (I : Type) : TLog I :=
  { nodes := ∅, edges := ∅ }

/-- Recording an edge in the log: the Rust arms insert the target id, the
origin id, and the (origin, target) pair (traversal.rs, `drive_edge`). -/
def TLog.record {I : Type} [DecidableEq I] (log : TLog I) (u v : I) : TLog I :=
  { nodes := insert u (insert v log.nodes), edges := insert (u, v) log.edges }

/-- Construction of a log from a list of (origin, target) pairs
(`impl From<Vec<(I, I)>> for TraversalLog`, traversal.rs lines 53-68). -/
def logFromList {I : Type} [DecidableEq I] (l : List (I × I)) : TLog I :=
  l.foldl (fun log p => { nodes := insert p.1 (insert p.2 log.nodes),
                          edges := insert p log.edges }) (TLog.empty I)

/-- Merge of two traversal logs by set union (`TraversalLog::merge_with`,
traversal.rs lines 204-208). -/
def TLog.mergeWith {I : Type} [DecidableEq I] (a b : TLog I) : TLog I :=
  { nodes := a.nodes ∪ b.nodes, edges := a.edges ∪ b.edges }

/-- State of a running traversal (`TraverseGraph` in traversal.rs): the log,
the work queue of (meta, edge) pairs — an edge reduced to its origin and
target ids, since no modelled callback reads edge metadata — and the external
mutable environment `σ` that the Rust closures capture (collected paths,
node annotation maps). -/
structure TState (I σ : Type) where
  log : TLog I
  queue : List (TMeta I × I × I)
  st : σ

/-- Queue pop: BFS pops the front (`pop_front`), DFS pops the back
(`pop_back`) — traversal.rs lines 362-365. -/
def popEdge {Q : Type} (p : Pathing) (q : List Q) : Option (Q × List Q) :=
  match p, q with
  | _, [] => none
  | .bfs, e :: rest => some (e, rest)
  | .dfs, e :: rest =>
    some ((e :: rest).getLast (List.cons_ne_nil e rest), (e :: rest).dropLast)

/-- One step of the traversal (`TraverseGraph::drive_edge`, traversal.rs lines
358-411). Pops an edge per the pathing, runs the callback, then dispatches:
in Acyclic mode a `Continue` whose target id is already in the log's node set
records the edge but does not expand; `Halt` clears the queue; `Skip` records
nothing; `Backtrack` records without expanding; `Continue` records and
enqueues the target's outgoing edges at depth + 1 (pushed to the back in
source edge order). Returns `none` exactly when the queue was empty. -/
def driveEdge {I σ R : Type} [DecidableEq I] (adj : I → List I) (mode : Mode)
    (pathing : Pathing) (f : TMeta I → I → I → σ → σ × Instruction R)
    (s : TState I σ) : Option R × TState I σ :=
  match popEdge pathing s.queue with
  | none => (none, s)
  | some ((meta, u, v), rest) =>
    match f meta u v s.st with
    | (σ', ins) =>
      match ins with
      | .halt r => (some r, { log := s.log, queue := [], st := σ' })
      | .skip r => (some r, { log := s.log, queue := rest, st := σ' })
      | .backtrack r => (some r, { log := s.log.record u v, queue := rest, st := σ' })
      | .cont r =>
        match mode with
        | .acyclic =>
          if v ∈ s.log.nodes then
            (some r, { log := s.log.record u v, queue := rest, st := σ' })
          else
            (some r, { log := s.log.record u v,
                       queue := rest ++ (adj v).map
                         (fun w => ({ depth := meta.depth + 1,
                                      pathAnn := meta.pathAnn }, v, w)),
                       st := σ' })
        | .simple =>
            (some r, { log := s.log.record u v,
                       queue := rest ++ (adj v).map
                         (fun w => ({ depth := meta.depth + 1,
                                      pathAnn := meta.pathAnn }, v, w)),
                       st := σ' })

/-- Initial traversal state (`traverse_graph`, traversal.rs lines 285-302):
the queue is seeded with the start node's outgoing edges at depth 1 and the
start node's id is recorded as visited. -/
def initState {I σ : Type} [DecidableEq I] (adj : I → List I) (start : I)
    (σ₀ : σ) : TState I σ :=
  { log := { nodes := {start}, edges := ∅ },
    queue := (adj start).map (fun w => ({ depth := 1, pathAnn := [] }, start, w)),
    st := σ₀ }

/-- Fueled driver loop (`execute`, traversal.rs lines 318-333): step until
`drive_edge` returns `none` (empty queue) or the fuel runs out. Rust has no
fuel; the termination theorems show the fuel used at every call site makes
the queue drain. -/
def runTraversal {I σ R : Type} [DecidableEq I] (adj : I → List I) (mode : Mode)
    (pathing : Pathing) (f : TMeta I → I → I → σ → σ × Instruction R)
    (fuel : Nat) (s : TState I σ) : TState I σ :=
  match fuel with
  | 0 => s
  | n + 1 =>
    match driveEdge adj mode pathing f s with
    | (none, s') => s'
    | (some _, s') => runTraversal adj mode pathing f n s'

/-- The invariant of claim C10: every edge pair recorded in a log has both of
its endpoints in the log's node set. -/
def LogInv {I : Type} [DecidableEq I] (L : TLog I) : Prop :=
  ∀ p ∈ L.edges, p.1 ∈ L.nodes ∧ p.2 ∈ L.nodes

instance logInvDecidable {I : Type} [DecidableEq I] (L : TLog I) :
    Decidable (LogInv L) := by
  unfold LogInv
  infer_instance

theorem logInv_record {I : Type} [DecidableEq I] {L : TLog I} (h : LogInv L)
    (u v : I) : LogInv (L.record u v) := by
  intro p hp
  rcases Finset.mem_insert.1 hp with h1 | h2
  · subst h1
    constructor
    · exact Finset.mem_insert_self _ _
    · exact Finset.mem_insert_of_mem (Finset.mem_insert_self _ _)
  · rcases h p h2 with ⟨ha, hb⟩
    exact ⟨Finset.mem_insert_of_mem (Finset.mem_insert_of_mem ha),
           Finset.mem_insert_of_mem (Finset.mem_insert_of_mem hb)⟩

theorem logInv_driveEdge {I σ R : Type} [DecidableEq I] (adj : I → List I)
    (mode : Mode) (pathing : Pathing)
    (f : TMeta I → I → I → σ → σ × Instruction R) (s : TState I σ)
    (h : LogInv s.log) : LogInv (driveEdge adj mode pathing f s).2.log := by
  unfold driveEdge
  rcases hp : popEdge pathing s.queue with _ | ⟨⟨meta, u, v⟩, rest⟩
  · simpa using h
  · simp only
    rcases f meta u v s.st with ⟨σ', ins⟩
    cases ins with
    | halt r => simpa using h
    | skip r => simpa using h
    | backtrack r => simpa using logInv_record h u v
    | cont r =>
      cases mode with
      | acyclic =>
        by_cases hv : v ∈ s.log.nodes
        · simpa [hv] using logInv_record h u v
        · simpa [hv] using logInv_record h u v
      | simple => simpa using logInv_record h u v

theorem logInv_runTraversal {I σ R : Type} [DecidableEq I] (adj : I → List I)
    (mode : Mode) (pathing : Pathing)
    (f : TMeta I → I → I → σ → σ × Instruction R) (fuel : Nat) (s : TState I σ)
    (h : LogInv s.log) : LogInv (runTraversal adj mode pathing f fuel s).log := by
  induction fuel generalizing s with
  | zero => exact h
  | succ n ih =>
    have hstep := logInv_driveEdge adj mode pathing f s h
    unfold runTraversal
    rcases hd : driveEdge adj mode pathing f s with ⟨r, s'⟩
    rw [hd] at hstep
    cases r with
    | none => exact hstep
    | some rr => exact ih s' hstep

theorem logInv_fromList {I : Type} [DecidableEq I] (l : List (I × I)) :
    LogInv (logFromList l) := by
  suffices h : ∀ L : TLog I, LogInv L →
      LogInv (l.foldl (fun log p => { nodes := insert p.1 (insert p.2 log.nodes),
                                      edges := insert p log.edges }) L) by
    refine h (TLog.empty I) ?_
    intro p hp
    simp [TLog.empty] at hp
  induction l with
  | nil => intro L hL; exact hL
  | cons p rest ih =>
    intro L hL
    refine ih _ ?_
    intro q hq
    rcases Finset.mem_insert.1 hq with h1 | h2
    · subst h1
      exact ⟨Finset.mem_insert_self _ _,
             Finset.mem_insert_of_mem (Finset.mem_insert_self _ _)⟩
    · rcases hL q h2 with ⟨ha, hb⟩
      exact ⟨Finset.mem_insert_of_mem (Finset.mem_insert_of_mem ha),
             Finset.mem_insert_of_mem (Finset.mem_insert_of_mem hb)⟩

theorem logInv_mergeWith {I : Type} [DecidableEq I] {a b : TLog I}
    (ha : LogInv a) (hb : LogInv b) : LogInv (a.mergeWith b) := by
  intro p hp
  rcases Finset.mem_union.1 hp with h1 | h2
  · rcases ha p h1 with ⟨x, y⟩
    exact ⟨Finset.mem_union_left _ x, Finset.mem_union_left _ y⟩
  · rcases hb p h2 with ⟨x, y⟩
    exact ⟨Finset.mem_union_right _ x, Finset.mem_union_right _ y⟩

/-- Claim C10: every `TraversalLog` produced by a public operation — seeding
and stepping or running a traversal, building a log from a list of pairs, or
merging two logs — satisfies the invariant that both endpoints of every
recorded edge pair are in the node set. -/
theorem c10_log_invariant {I σ R : Type} [DecidableEq I] :
    (∀ (adj : I → List I) (start : I) (σ₀ : σ),
        LogInv (initState adj start σ₀).log)
    ∧ (∀ (adj : I → List I) (mode : Mode) (pathing : Pathing)
        (f : TMeta I → I → I → σ → σ × Instruction R) (s : TState I σ),
        LogInv s.log → LogInv (driveEdge adj mode pathing f s).2.log)
    ∧ (∀ (adj : I → List I) (mode : Mode) (pathing : Pathing)
        (f : TMeta I → I → I → σ → σ × Instruction R) (fuel : Nat)
        (s : TState I σ), LogInv s.log →
        LogInv (runTraversal adj mode pathing f fuel s).log)
    ∧ (∀ l : List (I × I), LogInv (logFromList l))
    ∧ (∀ a b : TLog I, LogInv a → LogInv b → LogInv (a.mergeWith b)) := by
  refine ⟨?_, ?_, ?_, ?_, ?_⟩
  · intro adj start σ₀ p hp
    simp [initState] at hp
  · intro adj mode pathing f s h
    exact logInv_driveEdge adj mode pathing f s h
  · intro adj mode pathing f fuel s h
    exact logInv_runTraversal adj mode pathing f fuel s h
  · intro l
    exact logInv_fromList l
  · intro a b ha hb
    exact logInv_mergeWith ha hb

/-- Witness for C10: the invariant-preservation conjuncts applied at a
concrete step of a concrete traversal over `Nat`. -/
theorem c10_log_invariant_witness :
    LogInv (logFromList [(1, 2), (2, 3)] : TLog Nat)
      ∧ LogInv (driveEdge (fun n => if n = 1 then [2] else []) Mode.acyclic
          Pathing.bfs (fun _ _ _ σ => (σ, Instruction.cont ()))
          (initState (fun n => if n = 1 then [2] else []) 1 ())).2.log := by
  constructor
  · exact (@c10_log_invariant Nat Unit Unit _).2.2.2.1 [(1, 2), (2, 3)]
  · exact (@c10_log_invariant Nat Unit Unit _).2.1
      (fun n => if n = 1 then [2] else []) Mode.acyclic Pathing.bfs
      (fun _ _ _ σ => (σ, Instruction.cont ()))
      (initState (fun n => if n = 1 then [2] else []) 1 ()) (by decide)

/-- Edge relation induced by an adjacency function: `stepRel adj a b` holds
when the graph has an outgoing edge from `a` to `b`. -/
def stepRel {I : Type} (adj : I → List I) (a b : I) : Prop := b ∈ adj a

/-- Total number of edges of the graph restricted to the node universe `N`. -/
def totalDeg {I : Type} [DecidableEq I] (adj : I → List I) (N : Finset I) : Nat :=
  Finset.sum N (fun u => (adj u).length)

/-- Termination measure for acyclic traversals: unvisited universe nodes
weighted by the edge budget, plus the queue length. -/
def measureT {I σ : Type} [DecidableEq I] (adj : I → List I) (N : Finset I)
    (s : TState I σ) : Nat :=
  (N \ s.log.nodes).card * (totalDeg adj N + 1) + s.queue.length

/-- Well-formedness of a traversal state: visited node ids lie in the node
universe, and every queued edge starts at a visited node and is an actual
graph edge. -/
def QueueWF {I σ : Type} [DecidableEq I] (adj : I → List I) (N : Finset I)
    (s : TState I σ) : Prop :=
  (∀ u ∈ s.log.nodes, u ∈ N)
  ∧ ∀ e ∈ s.queue, e.2.1 ∈ s.log.nodes ∧ e.2.2 ∈ adj e.2.1

theorem popEdge_none_iff {Q : Type} (p : Pathing) (q : List Q) :
    popEdge p q = none ↔ q = [] := by
  cases p <;> cases q <;> simp [popEdge]

theorem popEdge_decomp {Q : Type} {p : Pathing} {q : List Q} {e : Q}
    {rest : List Q} (h : popEdge p q = some (e, rest)) :
    q = e :: rest ∨ q = rest ++ [e] := by
  cases p with
  | bfs =>
    cases q with
    | nil => simp [popEdge] at h
    | cons a t =>
      simp only [popEdge, Option.some.injEq, Prod.mk.injEq] at h
      left
      rw [← h.1, ← h.2]
  | dfs =>
    cases q with
    | nil => simp [popEdge] at h
    | cons a t =>
      simp only [popEdge, Option.some.injEq, Prod.mk.injEq] at h
      right
      rw [← h.1, ← h.2]
      exact (List.dropLast_append_getLast (List.cons_ne_nil a t)).symm

theorem popEdge_length {Q : Type} {p : Pathing} {q : List Q} {e : Q}
    {rest : List Q} (h : popEdge p q = some (e, rest)) :
    q.length = rest.length + 1 := by
  rcases popEdge_decomp h with h1 | h1 <;> simp [h1]

theorem popEdge_self_mem {Q : Type} {p : Pathing} {q : List Q} {e : Q}
    {rest : List Q} (h : popEdge p q = some (e, rest)) : e ∈ q := by
  rcases popEdge_decomp h with h1 | h1 <;> simp [h1]

theorem popEdge_rest_mem {Q : Type} {p : Pathing} {q : List Q} {e : Q}
    {rest : List Q} (h : popEdge p q = some (e, rest)) :
    ∀ w ∈ rest, w ∈ q := by
  intro w hw
  rcases popEdge_decomp h with h1 | h1 <;> simp [h1, hw]

theorem popEdge_mem_cases {Q : Type} {p : Pathing} {q : List Q} {e : Q}
    {rest : List Q} (h : popEdge p q = some (e, rest)) :
    ∀ w ∈ q, w = e ∨ w ∈ rest := by
  intro w hw
  rcases popEdge_decomp h with h1 | h1
  · rw [h1] at hw
    rcases List.mem_cons.1 hw with h2 | h2
    · exact Or.inl h2
    · exact Or.inr h2
  · rw [h1] at hw
    rcases List.mem_append.1 hw with h2 | h2
    · exact Or.inr h2
    · exact Or.inl (by simpa using h2)

theorem queueWF_driveEdge {I σ R : Type} [DecidableEq I] {adj : I → List I}
    {N : Finset I} (hclosed : ∀ u ∈ N, ∀ v ∈ adj u, v ∈ N)
    (mode : Mode) (pathing : Pathing)
    (f : TMeta I → I → I → σ → σ × Instruction R) (s : TState I σ)
    (hWF : QueueWF adj N s) : QueueWF adj N (driveEdge adj mode pathing f s).2 := by
  unfold driveEdge
  rcases hp : popEdge pathing s.queue with _ | ⟨⟨meta, u, v⟩, rest⟩
  · exact hWF
  · have hmem := hWF.2 _ (popEdge_self_mem hp)
    have hu : u ∈ s.log.nodes := hmem.1
    have hv : v ∈ adj u := hmem.2
    have huN : u ∈ N := hWF.1 u hu
    have hvN : v ∈ N := hclosed u huN v hv
    have hNodesRec : ∀ w ∈ (s.log.record u v).nodes, w ∈ N := by
      intro w hw
      rcases Finset.mem_insert.1 hw with h1 | h1
      · exact h1 ▸ huN
      · rcases Finset.mem_insert.1 h1 with h2 | h2
        · exact h2 ▸ hvN
        · exact hWF.1 w h2
    have hRest : ∀ e ∈ rest, e.2.1 ∈ s.log.nodes ∧ e.2.2 ∈ adj e.2.1 := by
      intro e he
      exact hWF.2 e (popEdge_rest_mem hp e he)
    have hRestRec : ∀ e ∈ rest, e.2.1 ∈ (s.log.record u v).nodes ∧ e.2.2 ∈ adj e.2.1 := by
      intro e he
      refine ⟨?_, (hRest e he).2⟩
      exact Finset.mem_insert_of_mem (Finset.mem_insert_of_mem (hRest e he).1)
    have hExpand : ∀ e ∈ rest ++ (adj v).map
        (fun w => ({ depth := meta.depth + 1, pathAnn := meta.pathAnn }, v, w)),
        e.2.1 ∈ (s.log.record u v).nodes ∧ e.2.2 ∈ adj e.2.1 := by
      intro e he
      rcases List.mem_append.1 he with h1 | h1
      · exact hRestRec e h1
      · rcases List.mem_map.1 h1 with ⟨w, hw, hwe⟩
        rw [← hwe]
        refine ⟨?_, hw⟩
        exact Finset.mem_insert_of_mem (Finset.mem_insert_self _ _)
    simp only
    rcases f meta u v s.st with ⟨σ', ins⟩
    cases ins with
    | halt r =>
      refine ⟨hWF.1, ?_⟩
      intro e he
      simp at he
    | skip r => exact ⟨hWF.1, hRest⟩
    | backtrack r => exact ⟨hNodesRec, hRestRec⟩
    | cont r =>
      cases mode with
      | acyclic =>
        by_cases hvn : v ∈ s.log.nodes
        · simp only [hvn, if_true]
          exact ⟨hNodesRec, hRestRec⟩
        · simp only [hvn, if_false]
          exact ⟨hNodesRec, hExpand⟩
      | simple => exact ⟨hNodesRec, hExpand⟩

theorem record_nodes_mono {I : Type} [DecidableEq I] (L : TLog I) (u v : I) :
    L.nodes ⊆ (L.record u v).nodes := by
  intro w hw
  exact Finset.mem_insert_of_mem (Finset.mem_insert_of_mem hw)

theorem adj_length_le_totalDeg {I : Type} [DecidableEq I] (adj : I → List I)
    {N : Finset I} {v : I} (hv : v ∈ N) : (adj v).length ≤ totalDeg adj N := by
  unfold totalDeg
  have h : ∀ i ∈ N, 0 ≤ (fun u => (adj u).length) i := fun i _ => Nat.zero_le _
  exact Finset.single_le_sum h hv

theorem sdiff_card_le_of_record {I : Type} [DecidableEq I] (N : Finset I)
    (L : TLog I) (u v : I) :
    ((N \ (L.record u v).nodes).card) ≤ (N \ L.nodes).card := by
  refine Finset.card_le_card ?_
  intro w hw
  rcases Finset.mem_sdiff.1 hw with ⟨h1, h2⟩
  refine Finset.mem_sdiff.2 ⟨h1, ?_⟩
  intro hc
  exact h2 (record_nodes_mono L u v hc)

theorem sdiff_card_lt_of_record {I : Type} [DecidableEq I] (N : Finset I)
    (L : TLog I) (u v : I) (hvN : v ∈ N) (hv : v ∉ L.nodes) :
    ((N \ (L.record u v).nodes).card) < (N \ L.nodes).card := by
  refine Finset.card_lt_card ?_
  constructor
  · intro w hw
    rcases Finset.mem_sdiff.1 hw with ⟨h1, h2⟩
    refine Finset.mem_sdiff.2 ⟨h1, ?_⟩
    intro hc
    exact h2 (record_nodes_mono L u v hc)
  · intro hsub
    have hvmem : v ∈ N \ L.nodes := Finset.mem_sdiff.2 ⟨hvN, hv⟩
    have := hsub hvmem
    rcases Finset.mem_sdiff.1 this with ⟨_, h2⟩
    exact h2 (Finset.mem_insert_of_mem (Finset.mem_insert_self _ _))

theorem measureT_decreases {I σ R : Type} [DecidableEq I] {adj : I → List I}
    {N : Finset I} (hclosed : ∀ u ∈ N, ∀ v ∈ adj u, v ∈ N)
    (pathing : Pathing) (f : TMeta I → I → I → σ → σ × Instruction R)
    (s : TState I σ) (hWF : QueueWF adj N s) (hq : s.queue ≠ []) :
    measureT adj N (driveEdge adj .acyclic pathing f s).2 < measureT adj N s := by
  unfold driveEdge
  rcases hp : popEdge pathing s.queue with _ | ⟨⟨meta, u, v⟩, rest⟩
  · exact absurd ((popEdge_none_iff pathing s.queue).1 hp) hq
  · have hmem := hWF.2 _ (popEdge_self_mem hp)
    have hu : u ∈ s.log.nodes := hmem.1
    have hv : v ∈ adj u := hmem.2
    have huN : u ∈ N := hWF.1 u hu
    have hvN : v ∈ N := hclosed u huN v hv
    have hlen : s.queue.length = rest.length + 1 := popEdge_length hp
    have hcardle := sdiff_card_le_of_record N s.log u v
    simp only
    rcases f meta u v s.st with ⟨σ', ins⟩
    cases ins with
    | halt r =>
      unfold measureT
      simp only [List.length_nil]
      have : (N \ s.log.nodes).card * (totalDeg adj N + 1) + 0
          < (N \ s.log.nodes).card * (totalDeg adj N + 1) + s.queue.length := by
        omega
      exact this
    | skip r =>
      unfold measureT
      simp only
      omega
    | backtrack r =>
      unfold measureT
      simp only
      have := Nat.mul_le_mul_right (totalDeg adj N + 1) hcardle
      omega
    | cont r =>
      cases hvn : decide (v ∈ s.log.nodes) with
      | true =>
        have hvn' : v ∈ s.log.nodes := of_decide_eq_true hvn
        simp only [hvn', if_true]
        unfold measureT
        simp only
        have := Nat.mul_le_mul_right (totalDeg adj N + 1) hcardle
        omega
      | false =>
        have hvn' : v ∉ s.log.nodes := of_decide_eq_false hvn
        simp only [hvn', if_false]
        unfold measureT
        simp only [List.length_append, List.length_map]
        have hlt := sdiff_card_lt_of_record N s.log u v hvN hvn'
        have hdeg : (adj v).length ≤ totalDeg adj N := adj_length_le_totalDeg adj hvN
        -- abbreviate
        have harith : ∀ a b D q L : Nat, a < b → L ≤ D → q + 1 ≤ q + 1 →
            a * (D + 1) + (q + L) < b * (D + 1) + (q + 1) := by
          intro a b D q L hab hLD _
          have h1 : a + 1 ≤ b := hab
          have h2 : a * (D + 1) + (q + L) ≤ a * (D + 1) + q + D := by omega
          have h3 : a * (D + 1) + D + 1 = (a + 1) * (D + 1) := by ring
          have h4 : (a + 1) * (D + 1) ≤ b * (D + 1) :=
            Nat.mul_le_mul_right _ h1
          omega
        have := harith ((N \ (s.log.record u v).nodes).card)
          ((N \ s.log.nodes).card) (totalDeg adj N) rest.length
          (adj v).length hlt hdeg (le_refl _)
        omega

theorem driveEdge_some_of_ne {I σ R : Type} [DecidableEq I] (adj : I → List I)
    (mode : Mode) (pathing : Pathing)
    (f : TMeta I → I → I → σ → σ × Instruction R) (s : TState I σ)
    (hq : s.queue ≠ []) :
    ∃ r s', driveEdge adj mode pathing f s = (some r, s') := by
  unfold driveEdge
  rcases hp : popEdge pathing s.queue with _ | ⟨⟨meta, u, v⟩, rest⟩
  · exact absurd ((popEdge_none_iff pathing s.queue).1 hp) hq
  · simp only
    rcases f meta u v s.st with ⟨σ', ins⟩
    cases ins with
    | halt r => exact ⟨_, _, rfl⟩
    | skip r => exact ⟨_, _, rfl⟩
    | backtrack r => exact ⟨_, _, rfl⟩
    | cont r =>
      cases mode with
      | acyclic =>
        by_cases hv : v ∈ s.log.nodes
        · simp only [hv, if_true]
          exact ⟨_, _, rfl⟩
        · simp only [hv, if_false]
          exact ⟨_, _, rfl⟩
      | simple => exact ⟨_, _, rfl⟩

theorem runTraversal_drains {I σ R : Type} [DecidableEq I] {adj : I → List I}
    {N : Finset I} (hclosed : ∀ u ∈ N, ∀ v ∈ adj u, v ∈ N)
    (pathing : Pathing) (f : TMeta I → I → I → σ → σ × Instruction R) :
    ∀ (n : Nat) (s : TState I σ), measureT adj N s ≤ n → QueueWF adj N s →
      (runTraversal adj .acyclic pathing f n s).queue = [] := by
  intro n
  induction n with
  | zero =>
    intro s hm _
    have hlen : s.queue.length = 0 := by
      unfold measureT at hm
      omega
    unfold runTraversal
    exact List.length_eq_zero.1 hlen
  | succ n ih =>
    intro s hm hWF
    by_cases hq : s.queue = []
    · have hpop : popEdge pathing s.queue = none := (popEdge_none_iff _ _).2 hq
      unfold runTraversal driveEdge
      rw [hpop]
      exact hq
    · obtain ⟨r, s', hd⟩ := driveEdge_some_of_ne adj .acyclic pathing f s hq
      have hlt := measureT_decreases hclosed pathing f s hWF hq
      rw [hd] at hlt
      have hWF' := queueWF_driveEdge hclosed .acyclic pathing f s hWF
      rw [hd] at hWF'
      have hlt' : measureT adj N s' < measureT adj N s := hlt
      have hWF'' : QueueWF adj N s' := hWF'
      unfold runTraversal
      rw [hd]
      exact ih s' (by omega) hWF''

theorem nodes_mono_driveEdge {I σ R : Type} [DecidableEq I] (adj : I → List I)
    (mode : Mode) (pathing : Pathing)
    (f : TMeta I → I → I → σ → σ × Instruction R) (s : TState I σ) :
    s.log.nodes ⊆ (driveEdge adj mode pathing f s).2.log.nodes := by
  unfold driveEdge
  rcases hp : popEdge pathing s.queue with _ | ⟨⟨meta, u, v⟩, rest⟩
  · exact Finset.Subset.refl s.log.nodes
  · simp only
    rcases f meta u v s.st with ⟨σ', ins⟩
    cases ins with
    | halt r => exact Finset.Subset.refl s.log.nodes
    | skip r => exact Finset.Subset.refl s.log.nodes
    | backtrack r => exact record_nodes_mono s.log u v
    | cont r =>
      cases mode with
      | acyclic =>
        by_cases hv : v ∈ s.log.nodes
        · simp only [hv, if_true]
          exact record_nodes_mono s.log u v
        · simp only [hv, if_false]
          exact record_nodes_mono s.log u v
      | simple => exact record_nodes_mono s.log u v

theorem nodes_mono_runTraversal {I σ R : Type} [DecidableEq I] (adj : I → List I)
    (mode : Mode) (pathing : Pathing)
    (f : TMeta I → I → I → σ → σ × Instruction R) :
    ∀ (n : Nat) (s : TState I σ),
      s.log.nodes ⊆ (runTraversal adj mode pathing f n s).log.nodes := by
  intro n
  induction n with
  | zero =>
    intro s
    exact Finset.Subset.refl _
  | succ n ih =>
    intro s
    have hstep := nodes_mono_driveEdge adj mode pathing f s
    unfold runTraversal
    rcases hd : driveEdge adj mode pathing f s with ⟨r, s'⟩
    rw [hd] at hstep
    have hstep' : s.log.nodes ⊆ s'.log.nodes := hstep
    cases r with
    | none => exact hstep'
    | some rr => exact Finset.Subset.trans hstep' (ih s')

/-- Soundness invariant: every visited node id is reachable from the start
node along graph edges. -/
def ReachInv {I σ : Type} [DecidableEq I] (adj : I → List I) (start : I)
    (s : TState I σ) : Prop :=
  ∀ u ∈ s.log.nodes, Relation.ReflTransGen (stepRel adj) start u

theorem reachInv_driveEdge {I σ R : Type} [DecidableEq I] {adj : I → List I}
    {N : Finset I} {start : I} (mode : Mode) (pathing : Pathing)
    (f : TMeta I → I → I → σ → σ × Instruction R) (s : TState I σ)
    (hWF : QueueWF adj N s) (hR : ReachInv adj start s) :
    ReachInv adj start (driveEdge adj mode pathing f s).2 := by
  unfold driveEdge
  rcases hp : popEdge pathing s.queue with _ | ⟨⟨meta, u, v⟩, rest⟩
  · exact hR
  · have hmem := hWF.2 _ (popEdge_self_mem hp)
    have hu : u ∈ s.log.nodes := hmem.1
    have hv : v ∈ adj u := hmem.2
    have hrec : ∀ w ∈ (s.log.record u v).nodes,
        Relation.ReflTransGen (stepRel adj) start w := by
      intro w hw
      rcases Finset.mem_insert.1 hw with h1 | h1
      · exact h1 ▸ hR u hu
      · rcases Finset.mem_insert.1 h1 with h2 | h2
        · exact h2 ▸ (hR u hu).tail hv
        · exact hR w h2
    simp only
    rcases f meta u v s.st with ⟨σ', ins⟩
    cases ins with
    | halt r => exact hR
    | skip r => exact hR
    | backtrack r => exact hrec
    | cont r =>
      cases mode with
      | acyclic =>
        by_cases hvn : v ∈ s.log.nodes
        · simp only [hvn, if_true]
          exact hrec
        · simp only [hvn, if_false]
          exact hrec
      | simple => exact hrec

/-- The constant `Continue(())` callback used by claim C2 and by the chunk
truncation traversal in `traverse_entry_chunk`. -/
def contCallback {I σ : Type} : TMeta I → I → I → σ → σ × Instruction Unit :=
  fun _ _ _ st => (st, Instruction.cont ())

/-- Completeness invariant for the constant-`Continue` acyclic traversal:
every outgoing edge of a visited node is either still queued or already
recorded with its target visited. -/
def ContInv {I σ : Type} [DecidableEq I] (adj : I → List I) (s : TState I σ) : Prop :=
  ∀ u ∈ s.log.nodes, ∀ v ∈ adj u,
    (∃ m : TMeta I, (m, u, v) ∈ s.queue) ∨ ((u, v) ∈ s.log.edges ∧ v ∈ s.log.nodes)

theorem contInv_driveEdge {I σ : Type} [DecidableEq I] {adj : I → List I}
    {N : Finset I} (pathing : Pathing) (s : TState I σ)
    (hWF : QueueWF adj N s) (hC : ContInv adj s) :
    ContInv adj (driveEdge adj .acyclic pathing (@contCallback I σ) s).2 := by
  unfold driveEdge
  rcases hp : popEdge pathing s.queue with _ | ⟨⟨meta, u, v⟩, rest⟩
  · exact hC
  · have hmem := hWF.2 _ (popEdge_self_mem hp)
    have hu : u ∈ s.log.nodes := hmem.1
    simp only [contCallback]
    by_cases hvn : v ∈ s.log.nodes
    · simp only [hvn, if_true]
      intro u' hu' v' hv'
      have hu'' : u' ∈ s.log.nodes := by
        rcases Finset.mem_insert.1 hu' with h1 | h1
        · exact h1 ▸ hu
        · rcases Finset.mem_insert.1 h1 with h2 | h2
          · exact h2 ▸ hvn
          · exact h2
      rcases hC u' hu'' v' hv' with ⟨m, hmq⟩ | ⟨he, hn⟩
      · rcases popEdge_mem_cases hp _ hmq with h1 | h1
        · have huv : u' = u ∧ v' = v := by
            have h2 := congrArg (fun e => e.2) h1
            simp at h2
            exact ⟨h2.1, h2.2⟩
          refine Or.inr ?_
          rw [huv.1, huv.2]
          exact ⟨Finset.mem_insert_self _ _,
            Finset.mem_insert_of_mem (Finset.mem_insert_self _ _)⟩
        · exact Or.inl ⟨m, h1⟩
      · exact Or.inr ⟨Finset.mem_insert_of_mem he,
          Finset.mem_insert_of_mem (Finset.mem_insert_of_mem hn)⟩
    · simp only [hvn, if_false]
      intro u' hu' v' hv'
      by_cases hu'v : u' = v
      · refine Or.inl ?_
        refine ⟨{ depth := meta.depth + 1, pathAnn := meta.pathAnn }, ?_⟩
        refine List.mem_append_right _ ?_
        refine List.mem_map.2 ?_
        exact ⟨v', by rw [hu'v] at hv'; exact hv', by rw [hu'v]⟩
      · have hu'' : u' ∈ s.log.nodes := by
          rcases Finset.mem_insert.1 hu' with h1 | h1
          · exact h1 ▸ hu
          · rcases Finset.mem_insert.1 h1 with h2 | h2
            · exact absurd h2 hu'v
            · exact h2
        rcases hC u' hu'' v' hv' with ⟨m, hmq⟩ | ⟨he, hn⟩
        · rcases popEdge_mem_cases hp _ hmq with h1 | h1
          · have huv : u' = u ∧ v' = v := by
              have h2 := congrArg (fun e => e.2) h1
              simp at h2
              exact ⟨h2.1, h2.2⟩
            refine Or.inr ?_
            rw [huv.1, huv.2]
            exact ⟨Finset.mem_insert_self _ _,
              Finset.mem_insert_of_mem (Finset.mem_insert_self _ _)⟩
          · exact Or.inl ⟨m, List.mem_append_left _ h1⟩
        · exact Or.inr ⟨Finset.mem_insert_of_mem he,
            Finset.mem_insert_of_mem (Finset.mem_insert_of_mem hn)⟩

/-- Fuel sufficient to drain an acyclic traversal seeded at `start`: the
termination measure of the initial state. -/
def traversalFuel {I : Type} [DecidableEq I] (adj : I → List I) (N : Finset I)
    (start : I) : Nat :=
  (N \ {start}).card * (totalDeg adj N + 1) + (adj start).length

theorem measureT_initState {I σ : Type} [DecidableEq I] (adj : I → List I)
    (N : Finset I) (start : I) (σ₀ : σ) :
    measureT adj N (initState adj start σ₀) = traversalFuel adj N start := by
  unfold measureT traversalFuel initState
  simp

theorem queueWF_initState {I σ : Type} [DecidableEq I] {adj : I → List I}
    {N : Finset I} {start : I} (hstart : start ∈ N) (σ₀ : σ) :
    QueueWF adj N (initState adj start σ₀) := by
  refine ⟨?_, ?_⟩
  · intro u hu
    have h : u = start := by simpa [initState] using hu
    rw [h]
    exact hstart
  · intro e he
    simp only [initState, List.mem_map] at he
    obtain ⟨w, hw, he'⟩ := he
    rw [← he']
    exact ⟨by simp [initState], hw⟩

theorem reachInv_initState {I σ : Type} [DecidableEq I] (adj : I → List I)
    (start : I) (σ₀ : σ) : ReachInv adj start (initState adj start σ₀) := by
  intro u hu
  have h : u = start := by simpa [initState] using hu
  rw [h]

theorem contInv_initState {I σ : Type} [DecidableEq I] (adj : I → List I)
    (start : I) (σ₀ : σ) : ContInv adj (initState adj start σ₀) := by
  intro u hu v hv
  have h : u = start := by simpa [initState] using hu
  subst h
  refine Or.inl ⟨{ depth := 1, pathAnn := [] }, ?_⟩
  simp only [initState, List.mem_map]
  exact ⟨v, hv, rfl⟩

theorem invs_runTraversal {I σ : Type} [DecidableEq I] {adj : I → List I}
    {N : Finset I} {start : I} (hclosed : ∀ u ∈ N, ∀ v ∈ adj u, v ∈ N)
    (pathing : Pathing) :
    ∀ (n : Nat) (s : TState I σ), QueueWF adj N s → ReachInv adj start s →
      ContInv adj s →
      QueueWF adj N (runTraversal adj .acyclic pathing (@contCallback I σ) n s)
      ∧ ReachInv adj start (runTraversal adj .acyclic pathing (@contCallback I σ) n s)
      ∧ ContInv adj (runTraversal adj .acyclic pathing (@contCallback I σ) n s) := by
  intro n
  induction n with
  | zero =>
    intro s h1 h2 h3
    exact ⟨h1, h2, h3⟩
  | succ n ih =>
    intro s h1 h2 h3
    have s1 := queueWF_driveEdge hclosed .acyclic pathing (@contCallback I σ) s h1
    have s2 := reachInv_driveEdge .acyclic pathing (@contCallback I σ) s h1 h2
    have s3 := contInv_driveEdge pathing s h1 h3
    unfold runTraversal
    rcases hd : driveEdge adj .acyclic pathing (@contCallback I σ) s with ⟨r, s'⟩
    rw [hd] at s1 s2 s3
    have s1' : QueueWF adj N s' := s1
    have s2' : ReachInv adj start s' := s2
    have s3' : ContInv adj s' := s3
    cases r with
    | none => exact ⟨s1', s2', s3'⟩
    | some rr => exact ih s' s1' s2' s3'

/-- The three-node cycle of scenario S1: edges 1 to 2, 2 to 3, 3 to 1. -/
def cycleAdj : Nat → List Nat :=
  fun n => if n = 1 then [2] else if n = 2 then [3] else if n = 3 then [1] else []

/-- The finished state of the S1 traversal: BFS, acyclic mode, callback
always `Continue`, started at node 1, run with the canonical fuel. -/
def cycleRun : TState Nat Unit :=
  runTraversal cycleAdj .acyclic .bfs contCallback
    (traversalFuel cycleAdj {1, 2, 3} 1) (initState cycleAdj 1 ())

/-- Claim C2: on every graph (finite node universe `N` closed under the
adjacency function), an Acyclic-mode traversal from `start` whose callback
always returns `Continue` drains its queue within `traversalFuel` steps; the
final log's node set is exactly the set of nodes reachable from `start`
(including `start` itself), and its edge set contains every directed edge
pair whose origin is reachable from `start`. In particular on the three-node
cycle, BFS from node 1 yields nodes 1, 2, 3 and edges (1,2), (2,3), (3,1). -/
theorem c2_acyclic_continue_characterization {I : Type} [DecidableEq I]
    (adj : I → List I) (N : Finset I) (start : I) (pathing : Pathing)
    (hstart : start ∈ N) (hclosed : ∀ u ∈ N, ∀ v ∈ adj u, v ∈ N) :
    ((runTraversal adj .acyclic pathing (@contCallback I Unit)
        (traversalFuel adj N start) (initState adj start ())).queue = []
    ∧ (∀ w, w ∈ (runTraversal adj .acyclic pathing (@contCallback I Unit)
        (traversalFuel adj N start) (initState adj start ())).log.nodes
        ↔ Relation.ReflTransGen (stepRel adj) start w)
    ∧ (∀ u v, Relation.ReflTransGen (stepRel adj) start u → v ∈ adj u →
        (u, v) ∈ (runTraversal adj .acyclic pathing (@contCallback I Unit)
          (traversalFuel adj N start) (initState adj start ())).log.edges))
    ∧ (cycleRun.log.nodes = {1, 2, 3}
       ∧ cycleRun.log.edges = {(1, 2), (2, 3), (3, 1)}
       ∧ cycleRun.queue = []) := by
  have hWF0 := @queueWF_initState I Unit _ adj N start hstart ()
  have hR0 := reachInv_initState adj start ()
  have hC0 := contInv_initState adj start ()
  have hm0 : measureT adj N (initState adj start ()) ≤ traversalFuel adj N start := by
    rw [measureT_initState]
  have hdrain := runTraversal_drains hclosed pathing (@contCallback I Unit)
    (traversalFuel adj N start) (initState adj start ()) hm0 hWF0
  have hinvs := invs_runTraversal hclosed pathing (traversalFuel adj N start)
    (initState adj start ()) hWF0 hR0 hC0
  obtain ⟨hWF, hR, hC⟩ := hinvs
  have hreach_nodes : ∀ w, Relation.ReflTransGen (stepRel adj) start w →
      w ∈ (runTraversal adj .acyclic pathing (@contCallback I Unit)
        (traversalFuel adj N start) (initState adj start ())).log.nodes := by
    intro w hw
    induction hw with
    | refl =>
      refine nodes_mono_runTraversal adj .acyclic pathing (@contCallback I Unit)
        (traversalFuel adj N start) (initState adj start ()) ?_
      simp [initState]
    | tail h1 h2 ih =>
      rcases hC _ ih _ h2 with ⟨m, hmq⟩ | ⟨_, hn⟩
      · rw [hdrain] at hmq
        simp at hmq
      · exact hn
  refine ⟨⟨hdrain, ?_, ?_⟩, ?_⟩
  · intro w
    constructor
    · intro hw
      exact hR w hw
    · intro hw
      exact hreach_nodes w hw
  · intro u v hu hv
    have hun := hreach_nodes u hu
    rcases hC u hun v hv with ⟨m, hmq⟩ | ⟨he, _⟩
    · rw [hdrain] at hmq
      simp at hmq
    · exact he
  · refine ⟨by decide, by decide, by decide⟩

/-- Witness for C2: the general theorem applied to the concrete S1 cycle,
discharging the membership and closure hypotheses there. -/
theorem c2_acyclic_continue_characterization_witness :
    (runTraversal cycleAdj .acyclic .bfs (@contCallback Nat Unit)
        (traversalFuel cycleAdj {1, 2, 3} 1) (initState cycleAdj 1 ())).queue = []
    ∧ (3 : Nat) ∈ (runTraversal cycleAdj .acyclic .bfs (@contCallback Nat Unit)
        (traversalFuel cycleAdj {1, 2, 3} 1) (initState cycleAdj 1 ())).log.nodes := by
  have h := c2_acyclic_continue_characterization cycleAdj {1, 2, 3} 1 .bfs
    (by decide) (by decide)
  refine ⟨h.1.1, ?_⟩
  refine (h.1.2.1 3).2 ?_
  have h12 : Relation.ReflTransGen (stepRel cycleAdj) 1 2 :=
    Relation.ReflTransGen.single (show (2 : Nat) ∈ cycleAdj 1 by decide)
  exact h12.tail (show (3 : Nat) ∈ cycleAdj 2 by decide)

/-- First `Some` emitted by a traversal iterator: `into_iterator` followed by
`.flatten().next()` in `find_possible_chunk_for` (operations.rs line 97).
Drives edges until the callback emits a `some`, the queue empties, or the
fuel runs out. -/
def searchFirst {I σ A : Type} [DecidableEq I] (adj : I → List I) (mode : Mode)
    (pathing : Pathing)
    (f : TMeta I → I → I → σ → σ × Instruction (Option A)) (fuel : Nat)
    (s : TState I σ) : Option A :=
  match fuel with
  | 0 => none
  | n + 1 =>
    match driveEdge adj mode pathing f s with
    | (none, _) => none
    | (some r, s') =>
      match r with
      | some a => some a
      | none => searchFirst adj mode pathing f n s'

/-- Callback of the ancestor walk in `find_possible_chunk_for` (operations.rs
lines 84-95): halt with the target's id when it lies in the module's chunk
set, otherwise continue emitting nothing. -/
def ancestorCallback {C : Type} [DecidableEq C] (chunks : Finset C) :
    TMeta C → C → C → Unit → Unit × Instruction (Option C) :=
  fun _ _ v st =>
    (st, if v ∈ chunks then Instruction.halt (some v) else Instruction.cont none)

/-- Enumeration head of a finite set (`set.iter().next().cloned()` on a Rust
`HashSet`): some element of the set, `none` when empty. The hash iteration
order is unspecified; the model picks the minimum. `find_possible_chunk_for`
only reads it under `card = 1`, where every order yields the sole element. -/
def finsetPick {C : Type} [LinearOrder C] (s : Finset C) : Option C :=
  if h : s.Nonempty then some (s.min' h) else none

/-- Embedding of `find_possible_chunk_for` (operations.rs lines 51-98).
`chunks` is the child module's recorded chunk set (`node.node_data()`);
`originChunk` is the optional origin-chunk node reduced to its id and the
ordered list of its outgoing edge targets in the chunk graph (`find_edge`
scans that list in order); `importAdj` over universe `importNodes` is the
import-path graph `P`. The sole-chunk case mirrors
`chunks.iter().next().cloned()` as `finsetPick`. The Rust code panics
(`expect`) when the origin chunk id is missing from `P`; the model returns
`none` on that unreachable branch. -/
def findPossibleChunkFor {C : Type} [DecidableEq C] [LinearOrder C]
    (chunks : Finset C)
    (originChunkId : C) (originChunk : Option (C × List C))
    (importAdj : C → List C) (importNodes : Finset C) : Option C :=
  if chunks = ∅ ∨ originChunkId ∈ chunks then some originChunkId
  else if chunks.card = 1 then finsetPick chunks
  else
    match originChunk with
    | none => none
    | some (cnId, cnTargets) =>
      match cnTargets.find? (fun t => decide (t ∈ chunks)) with
      | some t => some t
      | none =>
        if cnId ∈ importNodes then
          searchFirst importAdj .acyclic .dfs (ancestorCallback chunks)
            (traversalFuel importAdj importNodes cnId)
            (initState importAdj cnId ())
        else none

/-- A node `w` is target-reachable from `root` when some node `u` reachable
from `root` has an outgoing edge to `w`; these are exactly the edge targets
the ancestor walk of `find_possible_chunk_for` can test. -/
def TargetReach {C : Type} (adj : C → List C) (root w : C) : Prop :=
  ∃ u, Relation.ReflTransGen (stepRel adj) root u ∧ w ∈ adj u

/-- Completeness invariant of the halt-search: every outgoing edge of a
visited node is still queued, or its target was visited and rejected (it is
not in the chunk set). -/
def HaltSearchInv {C σ : Type} [DecidableEq C] (adj : C → List C)
    (chunks : Finset C) (s : TState C σ) : Prop :=
  ∀ u ∈ s.log.nodes, ∀ v ∈ adj u,
    (∃ m : TMeta C, (m, u, v) ∈ s.queue) ∨ (v ∈ s.log.nodes ∧ v ∉ chunks)

theorem ancestorSearch_correct {C : Type} [DecidableEq C] {adj : C → List C}
    {N : Finset C} (chunks : Finset C) (root : C) (pathing : Pathing)
    (hclosed : ∀ u ∈ N, ∀ v ∈ adj u, v ∈ N) :
    ∀ (fuel : Nat) (s : TState C Unit), measureT adj N s ≤ fuel →
      QueueWF adj N s → ReachInv adj root s → HaltSearchInv adj chunks s →
      root ∈ s.log.nodes →
      (∃ a, searchFirst adj .acyclic pathing (ancestorCallback chunks) fuel s
          = some a ∧ a ∈ chunks ∧ TargetReach adj root a)
      ∨ (searchFirst adj .acyclic pathing (ancestorCallback chunks) fuel s
          = none ∧ ∀ w, TargetReach adj root w → w ∉ chunks) := by
  have hdrained : ∀ (s : TState C Unit), s.queue = [] → ReachInv adj root s →
      HaltSearchInv adj chunks s → root ∈ s.log.nodes →
      ∀ w, TargetReach adj root w → w ∉ chunks := by
    intro s hq hR hH hroot w hw
    have hclosure : ∀ x, Relation.ReflTransGen (stepRel adj) root x →
        x ∈ s.log.nodes ∧ (x = root ∨ x ∉ chunks) := by
      intro x hx
      induction hx with
      | refl => exact ⟨hroot, Or.inl rfl⟩
      | tail h1 h2 ih =>
        rcases hH _ ih.1 _ h2 with ⟨m, hmq⟩ | ⟨hn, hc⟩
        · rw [hq] at hmq
          simp at hmq
        · exact ⟨hn, Or.inr hc⟩
    obtain ⟨u, hu, hadj⟩ := hw
    have hun := (hclosure u hu).1
    rcases hH u hun w hadj with ⟨m, hmq⟩ | ⟨_, hc⟩
    · rw [hq] at hmq
      simp at hmq
    · exact hc
  intro fuel
  induction fuel with
  | zero =>
    intro s hm hWF hR hH hroot
    have hq : s.queue = [] := by
      have : s.queue.length = 0 := by
        unfold measureT at hm
        omega
      exact List.length_eq_zero.1 this
    exact Or.inr ⟨rfl, hdrained s hq hR hH hroot⟩
  | succ n ih =>
    intro s hm hWF hR hH hroot
    by_cases hq : s.queue = []
    · have hpop : popEdge pathing s.queue = none := (popEdge_none_iff _ _).2 hq
      refine Or.inr ⟨?_, hdrained s hq hR hH hroot⟩
      unfold searchFirst driveEdge
      rw [hpop]
    · rcases hpop : popEdge pathing s.queue with _ | ⟨⟨meta, u, v⟩, rest⟩
      · exact absurd ((popEdge_none_iff pathing s.queue).1 hpop) hq
      have hmemq := hWF.2 _ (popEdge_self_mem hpop)
      have hu : u ∈ s.log.nodes := hmemq.1
      have hv : v ∈ adj u := hmemq.2
      have huN : u ∈ N := hWF.1 u hu
      have hvN : v ∈ N := hclosed u huN v hv
      by_cases hvc : v ∈ chunks
      · -- the callback halts with `some v`
        refine Or.inl ⟨v, ?_, hvc, u, hR u hu, hv⟩
        unfold searchFirst driveEdge
        rw [hpop]
        simp only [ancestorCallback, hvc, if_true]
      · -- the callback continues with `none`; one more step
        have hd : driveEdge adj .acyclic pathing (ancestorCallback chunks) s
            = (some none,
               if v ∈ s.log.nodes then
                 { log := s.log.record u v, queue := rest, st := s.st }
               else
                 { log := s.log.record u v,
                   queue := rest ++ (adj v).map
                     (fun w => ({ depth := meta.depth + 1,
                                  pathAnn := meta.pathAnn }, v, w)),
                   st := s.st }) := by
          unfold driveEdge
          rw [hpop]
          simp only [ancestorCallback, hvc, if_false]
          by_cases hvn : v ∈ s.log.nodes
          · simp only [hvn, if_true]
          · simp only [hvn, if_false]
        have hsf : searchFirst adj .acyclic pathing (ancestorCallback chunks)
            (n + 1) s = searchFirst adj .acyclic pathing (ancestorCallback chunks)
            n (driveEdge adj .acyclic pathing (ancestorCallback chunks) s).2 := by
          conv_lhs => unfold searchFirst
          rw [hd]
        have hWF' := queueWF_driveEdge hclosed .acyclic pathing
          (ancestorCallback chunks) s hWF
        have hR' := reachInv_driveEdge .acyclic pathing
          (ancestorCallback chunks) s hWF hR
        have hlt := measureT_decreases hclosed pathing
          (ancestorCallback chunks) s hWF hq
        have hroot' : root ∈ (driveEdge adj .acyclic pathing
            (ancestorCallback chunks) s).2.log.nodes :=
          nodes_mono_driveEdge adj .acyclic pathing (ancestorCallback chunks) s hroot
        have hH' : HaltSearchInv adj chunks
            (driveEdge adj .acyclic pathing (ancestorCallback chunks) s).2 := by
          rw [hd]
          by_cases hvn : v ∈ s.log.nodes
          · simp only [hvn, if_true]
            intro u' hu' v' hv'
            have hu'' : u' ∈ s.log.nodes := by
              rcases Finset.mem_insert.1 hu' with h1 | h1
              · exact h1 ▸ hu
              · rcases Finset.mem_insert.1 h1 with h2 | h2
                · exact h2 ▸ hvn
                · exact h2
            rcases hH u' hu'' v' hv' with ⟨m, hmq⟩ | ⟨hn, hc⟩
            · rcases popEdge_mem_cases hpop _ hmq with h1 | h1
              · have huv : u' = u ∧ v' = v := by
                  have h2 := congrArg (fun e => e.2) h1
                  simp at h2
                  exact ⟨h2.1, h2.2⟩
                refine Or.inr ?_
                rw [huv.2]
                exact ⟨Finset.mem_insert_of_mem (Finset.mem_insert_self _ _), hvc⟩
              · exact Or.inl ⟨m, h1⟩
            · exact Or.inr ⟨Finset.mem_insert_of_mem (Finset.mem_insert_of_mem hn), hc⟩
          · simp only [hvn, if_false]
            intro u' hu' v' hv'
            by_cases hu'v : u' = v
            · refine Or.inl ?_
              refine ⟨{ depth := meta.depth + 1, pathAnn := meta.pathAnn }, ?_⟩
              refine List.mem_append_right _ ?_
              refine List.mem_map.2 ?_
              exact ⟨v', by rw [hu'v] at hv'; exact hv', by rw [hu'v]⟩
            · have hu'' : u' ∈ s.log.nodes := by
                rcases Finset.mem_insert.1 hu' with h1 | h1
                · exact h1 ▸ hu
                · rcases Finset.mem_insert.1 h1 with h2 | h2
                  · exact absurd h2 hu'v
                  · exact h2
              rcases hH u' hu'' v' hv' with ⟨m, hmq⟩ | ⟨hn, hc⟩
              · rcases popEdge_mem_cases hpop _ hmq with h1 | h1
                · have huv : u' = u ∧ v' = v := by
                    have h2 := congrArg (fun e => e.2) h1
                    simp at h2
                    exact ⟨h2.1, h2.2⟩
                  refine Or.inr ?_
                  rw [huv.2]
                  exact ⟨Finset.mem_insert_of_mem (Finset.mem_insert_self _ _), hvc⟩
                · exact Or.inl ⟨m, List.mem_append_left _ h1⟩
              · exact Or.inr ⟨Finset.mem_insert_of_mem (Finset.mem_insert_of_mem hn), hc⟩
        rw [hsf]
        exact ih _ (by omega) hWF' hR' hH' hroot'


theorem haltSearchInv_initState {C : Type} [DecidableEq C] (adj : C → List C)
    (chunks : Finset C) (root : C) :
    HaltSearchInv adj chunks (initState adj root ()) := by
  intro u hu v hv
  have h : u = root := by simpa [initState] using hu
  subst h
  refine Or.inl ⟨{ depth := 1, pathAnn := [] }, ?_⟩
  simp only [initState, List.mem_map]
  exact ⟨v, hv, rfl⟩

theorem ancestorSearch_spec {C : Type} [DecidableEq C] {adj : C → List C}
    {N : Finset C} (chunks : Finset C) (root : C)
    (hroot : root ∈ N) (hclosed : ∀ u ∈ N, ∀ v ∈ adj u, v ∈ N) :
    (∃ a, searchFirst adj .acyclic .dfs (ancestorCallback chunks)
        (traversalFuel adj N root) (initState adj root ()) = some a
        ∧ a ∈ chunks ∧ TargetReach adj root a)
    ∨ (searchFirst adj .acyclic .dfs (ancestorCallback chunks)
        (traversalFuel adj N root) (initState adj root ()) = none
        ∧ ∀ w, TargetReach adj root w → w ∉ chunks) := by
  refine ancestorSearch_correct chunks root .dfs hclosed _ _ ?_ ?_ ?_ ?_ ?_
  · rw [measureT_initState]
  · exact queueWF_initState hroot ()
  · exact reachInv_initState adj root ()
  · exact haltSearchInv_initState adj chunks root
  · simp [initState]

/-- Claim C1: the five-case decision of `find_possible_chunk_for`, plus the
concrete S4 (sole chunk wins regardless of origin) and S5 (first matching
chunk-graph child wins, in edge iteration order) scenarios. Case 5 is
characterized by soundness and completeness of the DFS-acyclic ancestor walk
over the import-path graph. -/
theorem c1_find_possible_chunk_for_cases {C : Type} [DecidableEq C]
    [LinearOrder C] (chunks : Finset C) (origin : C)
    (originChunk : Option (C × List C)) (importAdj : C → List C)
    (importNodes : Finset C) :
    ((chunks = ∅ ∨ origin ∈ chunks) →
      findPossibleChunkFor chunks origin originChunk importAdj importNodes
        = some origin)
    ∧ (∀ x, chunks = {x} →
      findPossibleChunkFor chunks origin originChunk importAdj importNodes
        = some x)
    ∧ (chunks ≠ ∅ → origin ∉ chunks → chunks.card ≠ 1 → originChunk = none →
      findPossibleChunkFor chunks origin originChunk importAdj importNodes
        = none)
    ∧ (∀ cnId cnTargets t, chunks ≠ ∅ → origin ∉ chunks → chunks.card ≠ 1 →
      originChunk = some (cnId, cnTargets) →
      cnTargets.find? (fun z => decide (z ∈ chunks)) = some t →
      findPossibleChunkFor chunks origin originChunk importAdj importNodes
        = some t ∧ t ∈ cnTargets ∧ t ∈ chunks)
    ∧ (∀ cnId cnTargets, chunks ≠ ∅ → origin ∉ chunks → chunks.card ≠ 1 →
      originChunk = some (cnId, cnTargets) →
      cnTargets.find? (fun z => decide (z ∈ chunks)) = none →
      cnId ∈ importNodes →
      (∀ u ∈ importNodes, ∀ v ∈ importAdj u, v ∈ importNodes) →
      (∀ a, findPossibleChunkFor chunks origin originChunk importAdj importNodes
          = some a → a ∈ chunks ∧ TargetReach importAdj cnId a)
      ∧ (findPossibleChunkFor chunks origin originChunk importAdj importNodes
          = none → ∀ w, TargetReach importAdj cnId w → w ∉ chunks))
    ∧ (findPossibleChunkFor ({7} : Finset Nat) 3 none (fun _ => []) ∅ = some 7
       ∧ findPossibleChunkFor ({5, 6} : Finset Nat) 4 (some (4, [5, 6]))
           (fun _ => []) ∅ = some 5
       ∧ findPossibleChunkFor ({5, 6} : Finset Nat) 4 (some (4, [6, 5]))
           (fun _ => []) ∅ = some 6) := by
  refine ⟨?_, ?_, ?_, ?_, ?_, by decide, by decide, by decide⟩
  · intro h
    unfold findPossibleChunkFor
    rw [if_pos h]
  · intro x hx
    subst hx
    by_cases hox : origin = x
    · unfold findPossibleChunkFor
      rw [if_pos (Or.inr (by simp [hox]))]
      rw [hox]
    · unfold findPossibleChunkFor
      rw [if_neg ?_, if_pos (Finset.card_singleton x)]
      · unfold finsetPick
        rw [dif_pos (Finset.singleton_nonempty x)]
        rw [Finset.min'_singleton]
      · rintro (h1 | h1)
        · exact absurd h1 (by simp)
        · exact hox (by simpa using h1)
  · intro h1 h2 h3 h4
    unfold findPossibleChunkFor
    rw [if_neg ?_, if_neg h3, h4]
    rintro (hc | hc)
    · exact h1 hc
    · exact h2 hc
  · intro cnId cnTargets t h1 h2 h3 h4 h5
    refine ⟨?_, ?_, ?_⟩
    · unfold findPossibleChunkFor
      rw [if_neg ?_, if_neg h3, h4]
      · dsimp only
        rw [h5]
      · rintro (hc | hc)
        · exact h1 hc
        · exact h2 hc
    · exact List.mem_of_find?_eq_some h5
    · have := List.find?_some h5
      simpa using this
  · intro cnId cnTargets h1 h2 h3 h4 h5 h6 h7
    have heq : findPossibleChunkFor chunks origin originChunk importAdj importNodes
        = searchFirst importAdj .acyclic .dfs (ancestorCallback chunks)
          (traversalFuel importAdj importNodes cnId)
          (initState importAdj cnId ()) := by
      unfold findPossibleChunkFor
      rw [if_neg ?_, if_neg h3, h4]
      · dsimp only
        rw [h5, if_pos h6]
      · rintro (hc | hc)
        · exact h1 hc
        · exact h2 hc
    rcases ancestorSearch_spec chunks cnId h6 h7 with ⟨a, ha, hac, har⟩ | ⟨hn, hall⟩
    · constructor
      · intro b hb
        rw [heq, ha] at hb
        have hab : a = b := by simpa using hb
        exact ⟨hab ▸ hac, hab ▸ har⟩
      · intro hb
        rw [heq, ha] at hb
        simp at hb
    · constructor
      · intro b hb
        rw [heq, hn] at hb
        simp at hb
      · intro _
        exact hall

/-- Witness for C1: the case characterization applied at concrete inputs —
the origin-chunk case, the sole-chunk case, and the absent-origin-node case. -/
theorem c1_find_possible_chunk_for_cases_witness :
    findPossibleChunkFor (∅ : Finset Nat) 4 none (fun _ => []) ∅ = some 4
    ∧ findPossibleChunkFor ({7} : Finset Nat) 3 none (fun _ => []) ∅ = some 7
    ∧ findPossibleChunkFor ({2, 3} : Finset Nat) 1 none (fun _ => []) ∅ = none := by
  refine ⟨?_, ?_, ?_⟩
  · exact (c1_find_possible_chunk_for_cases (∅ : Finset Nat) 4 none
      (fun _ => []) ∅).1 (Or.inl rfl)
  · exact (c1_find_possible_chunk_for_cases ({7} : Finset Nat) 3 none
      (fun _ => []) ∅).2.1 7 rfl
  · exact (c1_find_possible_chunk_for_cases ({2, 3} : Finset Nat) 1 none
      (fun _ => []) ∅).2.2.1 (by decide) (by decide) (by decide) rfl

/-- A materialized graph node (`Node<T>` in meshed/src/graph/node.rs):
identity, shared node data, shared label, and the ordered outgoing edge list
as (target id, edge metadata) pairs. A Rust edge holds a shared reference to
its target node; since every public graph keeps each edge's target in its
node map (graph invariant 1), the reference is modelled by the target's id,
recovered by lookup where the source dereferences it. Annotations live in a
separate side map keyed by node id (the `Rc<AnymapCell>` is shared between
all clones of a node, and each graph has one node per id). -/
structure GNode (I D Lb M : Type) where
  id : I
  data : D
  label : Lb
  edges : List (I × M)
deriving DecidableEq

/-- A concrete graph (`ConcreteGraph<T>`): the id-to-node hash map modelled
as its list of nodes in iteration order. -/
abbrev GGraph (I D Lb M : Type) := List (GNode I D Lb M)

/-- Map lookup by node id (`graph.nodes.get` / `query`). -/
def gfind {I D Lb M : Type} [DecidableEq I] (g : GGraph I D Lb M) (i : I) :
    Option (GNode I D Lb M) :=
  g.find? (fun n => decide (n.id = i))

/-- Copy of a node without its edges (`Node::new_derived` and
`new_derived_with_annotations`: data and label are shared, the edge list is
fresh). -/
def GNode.derived {I D Lb M : Type} (n : GNode I D Lb M) : GNode I D Lb M :=
  { n with edges := [] }

/-- Hash-map `entry(id).or_insert_with(|| n.new_derived())`: keep the
existing entry for `n.id`, or append the derived copy of `n`. -/
def ensureNode {I D Lb M : Type} [DecidableEq I] (g : GGraph I D Lb M)
    (n : GNode I D Lb M) : GGraph I D Lb M :=
  if (gfind g n.id).isSome then g else g ++ [n.derived]

/-- Append one outgoing edge (target `t`, metadata `m`) to the entry with id
`i` (`insert_edge` / `derive_edge` push onto the node's edge vector). -/
def pushEdge {I D Lb M : Type} [DecidableEq I] (g : GGraph I D Lb M)
    (i t : I) (m : M) : GGraph I D Lb M :=
  g.map (fun n => if n.id = i then { n with edges := n.edges ++ [(t, m)] } else n)

/-- Node count (`ConcreteGraph::order`). -/
def gOrder {I D Lb M : Type} (g : GGraph I D Lb M) : Nat := g.length

/-- All edges of the graph as (origin, target, metadata) triples, origin by
origin (`all_edges`). -/
def gAllEdges {I D Lb M : Type} (g : GGraph I D Lb M) : List (I × I × M) :=
  g.flatMap (fun n => n.edges.map (fun e => (n.id, e.1, e.2)))

/-- Edge count: size(G) is the edge total across nodes. -/
def gSize {I D Lb M : Type} (g : GGraph I D Lb M) : Nat := (gAllEdges g).length

/-- The id list of a graph, in map iteration order. -/
def gIds {I D Lb M : Type} (g : GGraph I D Lb M) : List I := g.map (fun n => n.id)

/-- Graph invariant 1 of the data model: every edge's target id resolves to a
node of the graph. -/
def GClosed {I D Lb M : Type} [DecidableEq I] (g : GGraph I D Lb M) : Prop :=
  ∀ n ∈ g, ∀ e ∈ n.edges, ∃ tgt ∈ g, tgt.id = e.1

/-- Well-formedness of the id map: one node per id. -/
def GNodupIds {I D Lb M : Type} (g : GGraph I D Lb M) : Prop := (gIds g).Nodup

instance gClosedDecidable {I D Lb M : Type} [DecidableEq I]
    (g : GGraph I D Lb M) : Decidable (GClosed g) := by
  unfold GClosed
  infer_instance

instance gNodupIdsDecidable {I D Lb M : Type} [DecidableEq I]
    (g : GGraph I D Lb M) : Decidable (GNodupIds g) := by
  unfold GNodupIds
  exact List.nodupDecidable _

/-- One edge step of `project_into_graph`: keep the edge iff its
(origin, target) pair is in the log's edge set, inserting the derived target
node first (the Rust loop holds the target node inside the edge; the model
recovers it by lookup in `g`, which succeeds on closed graphs). -/
def projStep {I D Lb M : Type} [DecidableEq I] (L : TLog I)
    (g : GGraph I D Lb M) (origin : I) (acc : GGraph I D Lb M) (e : I × M) :
    GGraph I D Lb M :=
  if (origin, e.1) ∈ L.edges then
    match gfind g e.1 with
    | some tgt => pushEdge (ensureNode acc tgt) origin e.1 e.2
    | none => acc
  else acc

/-- Projection of a traversal log back into a typed graph
(`TraversalLog::project_into_graph`, traversal.rs lines 124-162): for every
node of `g` whose id the log visited, copy the node (fresh edge list via
`new_derived_with_annotations`) and keep each of its outgoing edges whose
(origin, target) pair the log recorded. -/
def projectIntoGraph {I D Lb M : Type} [DecidableEq I] (L : TLog I)
    (g : GGraph I D Lb M) : GGraph I D Lb M :=
  g.foldl
    (fun out nd =>
      if nd.id ∈ L.nodes then
        nd.edges.foldl (projStep L g nd.id) (ensureNode out nd)
      else out)
    []

theorem gfind_isSome_iff {I D Lb M : Type} [DecidableEq I]
    (g : GGraph I D Lb M) (i : I) :
    (gfind g i).isSome ↔ ∃ n ∈ g, n.id = i := by
  unfold gfind
  rw [List.find?_isSome]
  simp

theorem gfind_eq_none_iff {I D Lb M : Type} [DecidableEq I]
    (g : GGraph I D Lb M) (i : I) :
    gfind g i = none ↔ ∀ n ∈ g, n.id ≠ i := by
  unfold gfind
  rw [List.find?_eq_none]
  simp

theorem gfind_mem {I D Lb M : Type} [DecidableEq I] {g : GGraph I D Lb M}
    {i : I} {n : GNode I D Lb M} (h : gfind g i = some n) : n ∈ g :=
  List.mem_of_find?_eq_some h

theorem gfind_id {I D Lb M : Type} [DecidableEq I] {g : GGraph I D Lb M}
    {i : I} {n : GNode I D Lb M} (h : gfind g i = some n) : n.id = i := by
  have := List.find?_some h
  simpa using this

theorem mem_gIds_iff {I D Lb M : Type} [DecidableEq I] (g : GGraph I D Lb M)
    (i : I) : i ∈ gIds g ↔ ∃ n ∈ g, n.id = i := by
  unfold gIds
  simp [eq_comm]

theorem gfind_of_mem_nodup {I D Lb M : Type} [DecidableEq I]
    {g : GGraph I D Lb M} (hnd : GNodupIds g) {n : GNode I D Lb M}
    (hn : n ∈ g) : gfind g n.id = some n := by
  induction g with
  | nil => simp at hn
  | cons a rest ih =>
    rcases List.mem_cons.1 hn with h | h
    · subst h
      unfold gfind
      simp
    · have hne : a.id ≠ n.id := by
        intro he
        unfold GNodupIds gIds at hnd
        rw [List.map_cons, List.nodup_cons] at hnd
        refine hnd.1 ?_
        rw [he]
        exact List.mem_map.2 ⟨n, h, rfl⟩
      have hnd' : GNodupIds rest := by
        unfold GNodupIds gIds at hnd ⊢
        rw [List.map_cons, List.nodup_cons] at hnd
        exact hnd.2
      unfold gfind at ih ⊢
      rw [List.find?_cons_of_neg _ (by simp [hne])]
      exact ih hnd' h

theorem gfind_append {I D Lb M : Type} [DecidableEq I]
    (g₁ g₂ : GGraph I D Lb M) (i : I) :
    gfind (g₁ ++ g₂) i = (gfind g₁ i).or (gfind g₂ i) := by
  unfold gfind
  exact List.find?_append

theorem ensureNode_of_isSome {I D Lb M : Type} [DecidableEq I]
    {g : GGraph I D Lb M} {n : GNode I D Lb M}
    (h : (gfind g n.id).isSome) : ensureNode g n = g := by
  unfold ensureNode
  rw [if_pos h]

theorem ensureNode_of_none {I D Lb M : Type} [DecidableEq I]
    {g : GGraph I D Lb M} {n : GNode I D Lb M}
    (h : gfind g n.id = none) : ensureNode g n = g ++ [n.derived] := by
  unfold ensureNode
  rw [h]
  simp

theorem gfind_singleton {I D Lb M : Type} [DecidableEq I]
    (n : GNode I D Lb M) (i : I) :
    gfind [n] i = if n.id = i then some n else none := by
  unfold gfind
  by_cases h : n.id = i <;> simp [List.find?, h]

theorem gfind_ensureNode_self {I D Lb M : Type} [DecidableEq I]
    (g : GGraph I D Lb M) (n : GNode I D Lb M) :
    gfind (ensureNode g n) n.id = (gfind g n.id).or (some n.derived) := by
  rcases hf : gfind g n.id with _ | m
  · rw [ensureNode_of_none hf, gfind_append, hf]
    simp [gfind_singleton, GNode.derived]
  · rw [ensureNode_of_isSome (by rw [hf]; rfl), hf]
    rfl

theorem gfind_ensureNode_other {I D Lb M : Type} [DecidableEq I]
    (g : GGraph I D Lb M) (n : GNode I D Lb M) {i : I} (h : i ≠ n.id) :
    gfind (ensureNode g n) i = gfind g i := by
  unfold ensureNode
  by_cases hs : (gfind g n.id).isSome
  · rw [if_pos hs]
  · rw [if_neg hs, gfind_append, gfind_singleton]
    rw [if_neg ?_]
    · rcases gfind g i <;> rfl
    · simp [GNode.derived]
      intro he
      exact absurd he.symm h

theorem gfind_pushEdge {I D Lb M : Type} [DecidableEq I]
    (g : GGraph I D Lb M) (i t : I) (m : M) (j : I) :
    gfind (pushEdge g i t m) j = (gfind g j).map
      (fun n => if n.id = i then { n with edges := n.edges ++ [(t, m)] } else n) := by
  unfold pushEdge gfind
  rw [List.find?_map]
  have hp : ((fun n : GNode I D Lb M => decide (n.id = j)) ∘
      (fun n => if n.id = i then { n with edges := n.edges ++ [(t, m)] } else n))
      = (fun n : GNode I D Lb M => decide (n.id = j)) := by
    funext n
    by_cases h : n.id = i <;> simp [Function.comp, h]
  rw [hp]

theorem gIds_ensureNode {I D Lb M : Type} [DecidableEq I]
    (g : GGraph I D Lb M) (n : GNode I D Lb M) :
    gIds (ensureNode g n) = gIds g ∨ gIds (ensureNode g n) = gIds g ++ [n.id] := by
  unfold ensureNode
  by_cases hs : (gfind g n.id).isSome
  · rw [if_pos hs]
    exact Or.inl rfl
  · rw [if_neg hs]
    refine Or.inr ?_
    unfold gIds
    simp [GNode.derived]

theorem gIds_pushEdge {I D Lb M : Type} [DecidableEq I]
    (g : GGraph I D Lb M) (i t : I) (m : M) :
    gIds (pushEdge g i t m) = gIds g := by
  unfold gIds pushEdge
  rw [List.map_map]
  congr 1
  funext n
  by_cases h : n.id = i <;> simp [h]

theorem nodup_ensureNode {I D Lb M : Type} [DecidableEq I]
    {g : GGraph I D Lb M} (hnd : GNodupIds g) (n : GNode I D Lb M) :
    GNodupIds (ensureNode g n) := by
  unfold ensureNode
  by_cases hs : (gfind g n.id).isSome
  · rw [if_pos hs]
    exact hnd
  · rw [if_neg hs]
    unfold GNodupIds gIds at hnd ⊢
    rw [List.map_append]
    simp only [List.map_cons, List.map_nil]
    rw [List.nodup_append]
    refine ⟨hnd, List.nodup_singleton _, ?_⟩
    intro x hx
    simp only [GNode.derived, List.mem_singleton]
    intro he
    rw [Option.not_isSome_iff_eq_none] at hs
    rw [gfind_eq_none_iff] at hs
    obtain ⟨nn, hnn, hid⟩ := (mem_gIds_iff g x).1 hx
    exact hs nn hnn (by rw [hid, he])

theorem nodup_pushEdge {I D Lb M : Type} [DecidableEq I]
    {g : GGraph I D Lb M} (hnd : GNodupIds g) (i t : I) (m : M) :
    GNodupIds (pushEdge g i t m) := by
  unfold GNodupIds
  rw [gIds_pushEdge]
  exact hnd

theorem mem_ensureNode {I D Lb M : Type} [DecidableEq I]
    {g : GGraph I D Lb M} {n x : GNode I D Lb M}
    (h : x ∈ ensureNode g n) : x ∈ g ∨ x = n.derived := by
  unfold ensureNode at h
  by_cases hs : (gfind g n.id).isSome
  · rw [if_pos hs] at h
    exact Or.inl h
  · rw [if_neg hs] at h
    rcases List.mem_append.1 h with h1 | h1
    · exact Or.inl h1
    · exact Or.inr (by simpa using h1)

theorem mem_pushEdge {I D Lb M : Type} [DecidableEq I]
    {g : GGraph I D Lb M} {x : GNode I D Lb M} {i t : I} {m : M}
    (h : x ∈ pushEdge g i t m) :
    ∃ n ∈ g, x = if n.id = i then { n with edges := n.edges ++ [(t, m)] } else n := by
  unfold pushEdge at h
  rcases List.mem_map.1 h with ⟨n, hn, he⟩
  exact ⟨n, hn, he.symm⟩

/-- The outgoing edges of `n` that a projection by log `L` keeps: those whose
(origin, target) pair was recorded. -/
def keptEdges {I D Lb M : Type} [DecidableEq I] (L : TLog I)
    (n : GNode I D Lb M) : List (I × M) :=
  n.edges.filter (fun e => decide ((n.id, e.1) ∈ L.edges))

theorem nodup_id_inj {I D Lb M : Type} [DecidableEq I] {g : GGraph I D Lb M}
    (hnd : GNodupIds g) {a b : GNode I D Lb M} (ha : a ∈ g) (hb : b ∈ g)
    (hid : a.id = b.id) : a = b := by
  have h1 := gfind_of_mem_nodup hnd ha
  have h2 := gfind_of_mem_nodup hnd hb
  rw [hid] at h1
  rw [h1] at h2
  exact Option.some.inj h2

theorem projInner_spec {I D Lb M : Type} [DecidableEq I] (L : TLog I)
    (g : GGraph I D Lb M) (origin : I) :
    ∀ (es : List (I × M)) (acc : GGraph I D Lb M) (a : GNode I D Lb M),
      gfind acc origin = some a →
      (∀ e ∈ es, ∃ tgt ∈ g, tgt.id = e.1) →
      GNodupIds acc →
      (gfind (es.foldl (projStep L g origin) acc) origin
        = some { a with edges :=
            a.edges ++ es.filter (fun e => decide ((origin, e.1) ∈ L.edges)) })
      ∧ (∀ x, x ≠ origin →
          gfind (es.foldl (projStep L g origin) acc) x = gfind acc x
          ∨ (gfind acc x = none ∧ (origin, x) ∈ L.edges
             ∧ ∃ tgt ∈ g, tgt.id = x
             ∧ gfind (es.foldl (projStep L g origin) acc) x = some tgt.derived))
      ∧ GNodupIds (es.foldl (projStep L g origin) acc) := by
  intro es
  induction es with
  | nil =>
    intro acc a ha _ hnd
    refine ⟨?_, ?_, hnd⟩
    · simpa using ha
    · intro x _
      exact Or.inl rfl
  | cons e rest ih =>
    intro acc a ha hcl hnd
    by_cases hkeep : (origin, e.1) ∈ L.edges
    · obtain ⟨tgt0, htgt0, hid0⟩ := hcl e (List.mem_cons_self e rest)
      have hfs : (gfind g e.1).isSome := (gfind_isSome_iff g e.1).2 ⟨tgt0, htgt0, hid0⟩
      rcases hfg : gfind g e.1 with _ | tgt
      · rw [hfg] at hfs
        simp at hfs
      have htgtmem : tgt ∈ g := gfind_mem hfg
      have htgtid : tgt.id = e.1 := gfind_id hfg
      have haid : a.id = origin := gfind_id ha
      -- the step state
      have hstep : List.foldl (projStep L g origin) acc (e :: rest)
          = List.foldl (projStep L g origin)
            (pushEdge (ensureNode acc tgt) origin e.1 e.2) rest := by
        simp only [List.foldl_cons]
        unfold projStep
        rw [if_pos hkeep, hfg]
      -- lookup of origin in the stepped accumulator
      have hens_origin : gfind (ensureNode acc tgt) origin = some a := by
        by_cases he : e.1 = origin
        · have : (gfind acc tgt.id).isSome := by
            rw [htgtid, he, ha]
            rfl
          rw [ensureNode_of_isSome this]
          exact ha
        · rw [gfind_ensureNode_other acc tgt (by rw [htgtid]; intro hh; exact he hh.symm)]
          exact ha
      have hpush_origin : gfind (pushEdge (ensureNode acc tgt) origin e.1 e.2) origin
          = some { a with edges := a.edges ++ [(e.1, e.2)] } := by
        rw [gfind_pushEdge, hens_origin]
        simp [haid]
      have hnd1 : GNodupIds (pushEdge (ensureNode acc tgt) origin e.1 e.2) :=
        nodup_pushEdge (nodup_ensureNode hnd tgt) origin e.1 e.2
      have hcl' : ∀ e' ∈ rest, ∃ t ∈ g, t.id = e'.1 := by
        intro e' he'
        exact hcl e' (List.mem_cons_of_mem e he')
      obtain ⟨ih1, ih2, ih3⟩ := ih (pushEdge (ensureNode acc tgt) origin e.1 e.2)
        { a with edges := a.edges ++ [(e.1, e.2)] } hpush_origin hcl' hnd1
      refine ⟨?_, ?_, ?_⟩
      · rw [hstep, ih1]
        simp [hkeep]
      · intro x hx
        have hstepx : gfind (pushEdge (ensureNode acc tgt) origin e.1 e.2) x
            = gfind (ensureNode acc tgt) x := by
          rw [gfind_pushEdge]
          rcases hfx : gfind (ensureNode acc tgt) x with _ | n
          · rfl
          · have : n.id = x := gfind_id hfx
            simp [this, hx]
        rcases ih2 x hx with h1 | ⟨h1, h2, h3⟩
        · -- the tail left x alone; compose with the single step
          rw [hstep, h1, hstepx]
          by_cases he : x = tgt.id
          · rcases hfx : gfind acc x with _ | n
            · refine Or.inr ⟨rfl, ?_, tgt, htgtmem, he.symm, ?_⟩
              · rw [← htgtid, ← he] at hkeep
                exact hkeep
              · rw [he, gfind_ensureNode_self, ← he, hfx]
                rfl
            · refine Or.inl ?_
              rw [he, gfind_ensureNode_self, ← he, hfx]
              rfl
          · refine Or.inl ?_
            rw [gfind_ensureNode_other acc tgt he]
        · -- the tail created the derived entry for x
          rw [hstep]
          rw [hstepx] at h1
          by_cases he : x = tgt.id
          · rcases hfx : gfind acc x with _ | n
            · exact Or.inr ⟨rfl, h2, h3⟩
            · rw [he, gfind_ensureNode_self, ← he, hfx] at h1
              simp at h1
          · rw [gfind_ensureNode_other acc tgt he] at h1
            exact Or.inr ⟨h1, h2, h3⟩
      · rw [hstep]
        exact ih3
    · have hstep : List.foldl (projStep L g origin) acc (e :: rest)
          = List.foldl (projStep L g origin) acc rest := by
        simp only [List.foldl_cons]
        unfold projStep
        rw [if_neg hkeep]
      have hcl' : ∀ e' ∈ rest, ∃ t ∈ g, t.id = e'.1 := by
        intro e' he'
        exact hcl e' (List.mem_cons_of_mem e he')
      obtain ⟨ih1, ih2, ih3⟩ := ih acc a ha hcl' hnd
      refine ⟨?_, ?_, ?_⟩
      · rw [hstep, ih1]
        simp [hkeep]
      · intro x hx
        rw [hstep]
        exact ih2 x hx
      · rw [hstep]
        exact ih3

/-- The outer fold of `project_into_graph`, with the node list still to
process made explicit. -/
def projFold {I D Lb M : Type} [DecidableEq I] (L : TLog I)
    (g : GGraph I D Lb M) (rest : List (GNode I D Lb M))
    (out : GGraph I D Lb M) : GGraph I D Lb M :=
  rest.foldl
    (fun o nd =>
      if nd.id ∈ L.nodes then
        nd.edges.foldl (projStep L g nd.id) (ensureNode o nd)
      else o)
    out

theorem projectIntoGraph_eq_projFold {I D Lb M : Type} [DecidableEq I]
    (L : TLog I) (g : GGraph I D Lb M) :
    projectIntoGraph L g = projFold L g g [] := rfl

theorem GNode.ext' {I D Lb M : Type} {a b : GNode I D Lb M}
    (h1 : a.id = b.id) (h2 : a.data = b.data) (h3 : a.label = b.label)
    (h4 : a.edges = b.edges) : a = b := by
  cases a
  cases b
  simp only at h1 h2 h3 h4
  rw [h1, h2, h3, h4]

theorem projOuter_spec {I D Lb M : Type} [DecidableEq I] (L : TLog I)
    (g : GGraph I D Lb M) (hclosed : GClosed g) (hnd : GNodupIds g)
    (hlog : LogInv L) :
    ∀ (rest done : List (GNode I D Lb M)) (out : GGraph I D Lb M),
      g = done ++ rest →
      GNodupIds out →
      (∀ n' ∈ out, n'.id ∈ L.nodes
        ∧ ∃ n ∈ g, n.id = n'.id ∧ n'.data = n.data ∧ n'.label = n.label) →
      (∀ n ∈ done, n.id ∈ L.nodes →
        gfind out n.id = some { id := n.id, data := n.data, label := n.label,
                                edges := keptEdges L n }) →
      (∀ x n', gfind out x = some n' → n'.edges ≠ [] → ∃ p ∈ done, p.id = x) →
      GNodupIds (projFold L g rest out)
      ∧ (∀ n' ∈ projFold L g rest out, n'.id ∈ L.nodes
          ∧ ∃ n ∈ g, n.id = n'.id ∧ n'.data = n.data ∧ n'.label = n.label)
      ∧ (∀ n ∈ g, n.id ∈ L.nodes →
          gfind (projFold L g rest out) n.id
            = some { id := n.id, data := n.data, label := n.label,
                     edges := keptEdges L n }) := by
  intro rest
  induction rest with
  | nil =>
    intro done out hg hndo inv2 invB _
    have hdone : done = g := by
      rw [hg, List.append_nil]
    refine ⟨hndo, inv2, ?_⟩
    intro n hn hin
    exact invB n (hdone ▸ hn) hin
  | cons nd rest' ih =>
    intro done out hg hndo inv2 invB invC
    have hndg : nd ∈ g := by
      rw [hg]
      exact List.mem_append_right _ (List.mem_cons_self nd rest')
    have hdisj : ∀ m ∈ done, m.id ≠ nd.id := by
      intro m hm he
      have h1 : (gIds (done ++ nd :: rest')).Nodup := by
        rw [← hg]
        exact hnd
      unfold gIds at h1
      rw [List.map_append] at h1
      obtain ⟨_, _, hdis⟩ := List.nodup_append.1 h1
      exact hdis (List.mem_map.2 ⟨m, hm, rfl⟩) (by simp [he])
    have hfold : projFold L g (nd :: rest') out
        = projFold L g rest'
          (if nd.id ∈ L.nodes then
            nd.edges.foldl (projStep L g nd.id) (ensureNode out nd)
          else out) := by
      unfold projFold
      rw [List.foldl_cons]
    by_cases hin : nd.id ∈ L.nodes
    · rw [hfold, if_pos hin]
      have ha0 : gfind (ensureNode out nd) nd.id
          = some { id := nd.id, data := nd.data, label := nd.label, edges := [] } := by
        rcases hfo : gfind out nd.id with _ | m
        · rw [gfind_ensureNode_self, hfo]
          rfl
        · rw [ensureNode_of_isSome (by rw [hfo]; rfl), hfo]
          have hmid : m.id = nd.id := gfind_id hfo
          obtain ⟨_, n, hng, hnid, hdata, hlabel⟩ := inv2 m (gfind_mem hfo)
          have hn_eq : n = nd := nodup_id_inj hnd hng hndg (by rw [hnid, hmid])
          have hmedges : m.edges = [] := by
            by_contra hne
            obtain ⟨p, hp, hpid⟩ := invC nd.id m hfo hne
            exact hdisj p hp hpid
          rw [hn_eq] at hdata hlabel
          have hm : m = { id := nd.id, data := nd.data, label := nd.label,
                          edges := [] } := GNode.ext' hmid hdata hlabel hmedges
          rw [hm]
      have hcl_nd : ∀ e ∈ nd.edges, ∃ tgt ∈ g, tgt.id = e.1 := hclosed nd hndg
      have hnd1 : GNodupIds (ensureNode out nd) := nodup_ensureNode hndo nd
      obtain ⟨i1, i2, i3⟩ := projInner_spec L g nd.id nd.edges (ensureNode out nd)
        { id := nd.id, data := nd.data, label := nd.label, edges := [] }
        ha0 hcl_nd hnd1
      have i1' : gfind (nd.edges.foldl (projStep L g nd.id) (ensureNode out nd)) nd.id
          = some { id := nd.id, data := nd.data, label := nd.label,
                   edges := keptEdges L nd } := by
        rw [i1]
        rfl
      refine ih (done ++ [nd]) _ ?_ i3 ?_ ?_ ?_
      · rw [hg]
        simp
      · -- membership description of the accumulated graph
        intro n' hn'
        have hself := gfind_of_mem_nodup i3 hn'
        by_cases hx : n'.id = nd.id
        · rw [hx, i1'] at hself
          have : n' = { id := nd.id, data := nd.data, label := nd.label,
                        edges := keptEdges L nd } := Option.some.inj hself.symm
          rw [this]
          exact ⟨hin, nd, hndg, rfl, rfl, rfl⟩
        · rcases i2 n'.id hx with h1 | ⟨_, hkeep, tgt, htgtg, htgtid, hfd⟩
          · rw [hself] at h1
            have hmem1 : n' ∈ ensureNode out nd := gfind_mem h1.symm
            rcases mem_ensureNode hmem1 with h2 | h2
            · exact inv2 n' h2
            · exact absurd (show n'.id = nd.id by rw [h2]; simp [GNode.derived]) hx
          · rw [hself] at hfd
            have hEq : n' = tgt.derived := Option.some.inj hfd
            have hmemL : n'.id ∈ L.nodes := (hlog (nd.id, n'.id) hkeep).2
            rw [hEq] at hmemL
            rw [hEq]
            refine ⟨hmemL, tgt, htgtg, ?_, ?_, ?_⟩
            · simp [GNode.derived]
            · simp [GNode.derived]
            · simp [GNode.derived]
      · -- processed nodes keep their filtered edge lists
        intro n hn hinn
        rcases List.mem_append.1 hn with h1 | h1
        · have hne : n.id ≠ nd.id := hdisj n h1
          rcases i2 n.id hne with h2 | ⟨h2, _, _, _, _⟩
          · rw [h2, gfind_ensureNode_other out nd hne]
            exact invB n h1 hinn
          · rw [gfind_ensureNode_other out nd hne] at h2
            rw [invB n h1 hinn] at h2
            simp at h2
        · have : n = nd := by simpa using h1
          rw [this]
          exact i1'
      · -- unprocessed entries still have empty edge lists
        intro x n' hfd hne
        by_cases hx : x = nd.id
        · exact ⟨nd, List.mem_append_right _ (by simp), hx.symm⟩
        · rcases i2 x (by exact fun hh => hx hh) with h2 | ⟨_, _, tgt, _, _, hfd2⟩
          · rw [h2] at hfd
            rw [gfind_ensureNode_other out nd (by exact fun hh => hx hh)] at hfd
            obtain ⟨p, hp, hpx⟩ := invC x n' hfd hne
            exact ⟨p, List.mem_append_left _ hp, hpx⟩
          · rw [hfd] at hfd2
            have hEq2 : n' = tgt.derived := Option.some.inj hfd2
            rw [hEq2] at hne
            exact absurd (show tgt.derived.edges = [] by simp [GNode.derived]) hne
    · rw [hfold, if_neg hin]
      refine ih (done ++ [nd]) _ ?_ hndo inv2 ?_ ?_
      · rw [hg]
        simp
      · intro n hn hinn
        rcases List.mem_append.1 hn with h1 | h1
        · exact invB n h1 hinn
        · have : n = nd := by simpa using h1
          rw [this] at hinn
          exact absurd hinn hin
      · intro x n' hfd hne
        obtain ⟨p, hp, hpx⟩ := invC x n' hfd hne
        exact ⟨p, List.mem_append_left _ hp, hpx⟩

/-- Full characterization of `project_into_graph` on well-formed inputs: the
projection has one node per id; every node of the projection is a copy of a
`g` node whose id the log visited; and every `g` node whose id the log
visited appears with exactly its kept edges — multiplicity and order of
parallel edges preserved by the per-edge filter. -/
theorem projectIntoGraph_spec {I D Lb M : Type} [DecidableEq I] (L : TLog I)
    (g : GGraph I D Lb M) (hclosed : GClosed g) (hnd : GNodupIds g)
    (hlog : LogInv L) :
    GNodupIds (projectIntoGraph L g)
    ∧ (∀ n' ∈ projectIntoGraph L g, n'.id ∈ L.nodes
        ∧ ∃ n ∈ g, n.id = n'.id ∧ n'.data = n.data ∧ n'.label = n.label)
    ∧ (∀ n ∈ g, n.id ∈ L.nodes →
        gfind (projectIntoGraph L g) n.id
          = some { id := n.id, data := n.data, label := n.label,
                   edges := keptEdges L n }) := by
  rw [projectIntoGraph_eq_projFold]
  refine projOuter_spec L g hclosed hnd hlog g [] [] (by simp) ?_ ?_ ?_ ?_
  · unfold GNodupIds gIds
    simp
  · intro n' hn'
    simp at hn'
  · intro n hn
    simp at hn
  · intro x n' hfd
    unfold gfind at hfd
    simp at hfd

theorem mem_gIds_projectIntoGraph {I D Lb M : Type} [DecidableEq I]
    (L : TLog I) (g : GGraph I D Lb M) (hclosed : GClosed g)
    (hnd : GNodupIds g) (hlog : LogInv L) (x : I) :
    x ∈ gIds (projectIntoGraph L g) ↔ x ∈ L.nodes ∧ x ∈ gIds g := by
  obtain ⟨hnd', hmem, hchar⟩ := projectIntoGraph_spec L g hclosed hnd hlog
  constructor
  · intro hx
    obtain ⟨n', hn', hid⟩ := (mem_gIds_iff _ x).1 hx
    obtain ⟨hL, n, hng, hnid, _, _⟩ := hmem n' hn'
    exact ⟨hid ▸ hL, (mem_gIds_iff g x).2 ⟨n, hng, by rw [hnid, hid]⟩⟩
  · intro ⟨hL, hx⟩
    obtain ⟨n, hng, hnid⟩ := (mem_gIds_iff g x).1 hx
    have := hchar n hng (by rw [hnid]; exact hL)
    refine (mem_gIds_iff _ x).2 ⟨_, gfind_mem this, ?_⟩
    rw [← hnid]

/-- The list of (origin, target) id pairs of a graph's edges, one per edge
occurrence. -/
def gEdgePairs {I D Lb M : Type} (g : GGraph I D Lb M) : List (I × I) :=
  (gAllEdges g).map (fun tr => (tr.1, tr.2.1))

theorem gEdgePairs_eq_flatMap {I D Lb M : Type} (g : GGraph I D Lb M) :
    gEdgePairs g = g.flatMap (fun n => n.edges.map (fun e => (n.id, e.1))) := by
  unfold gEdgePairs gAllEdges
  rw [List.map_flatMap]
  simp only [List.map_map]
  rfl

theorem projection_entry_edges {I D Lb M : Type} [DecidableEq I]
    (L : TLog I) (g : GGraph I D Lb M) (hclosed : GClosed g)
    (hnd : GNodupIds g) (hlog : LogInv L) :
    ∀ n' ∈ projectIntoGraph L g, ∃ n ∈ g, n.id = n'.id
      ∧ n'.edges = keptEdges L n := by
  obtain ⟨hnd', hmem, hchar⟩ := projectIntoGraph_spec L g hclosed hnd hlog
  intro n' hn'
  obtain ⟨hL, n, hng, hnid, _, _⟩ := hmem n' hn'
  have h1 := hchar n hng (by rw [hnid]; exact hL)
  have h2 := gfind_of_mem_nodup hnd' hn'
  rw [← hnid] at h2
  rw [h1] at h2
  refine ⟨n, hng, hnid, ?_⟩
  have := Option.some.inj h2
  rw [← this]

theorem c5_order_eq {I D Lb M : Type} [DecidableEq I]
    (L : TLog I) (g : GGraph I D Lb M) (hclosed : GClosed g)
    (hnd : GNodupIds g) (hlog : LogInv L) :
    gOrder (projectIntoGraph L g) = (L.nodes ∩ (gIds g).toFinset).card := by
  obtain ⟨hnd', _, _⟩ := projectIntoGraph_spec L g hclosed hnd hlog
  have hlen : gOrder (projectIntoGraph L g) = (gIds (projectIntoGraph L g)).length := by
    unfold gOrder gIds
    rw [List.length_map]
  rw [hlen, ← List.toFinset_card_of_nodup hnd']
  congr 1
  ext x
  rw [List.mem_toFinset, mem_gIds_projectIntoGraph L g hclosed hnd hlog]
  simp [Finset.mem_inter]

theorem c5_size_le {I D Lb M : Type} [DecidableEq I]
    (L : TLog I) (g : GGraph I D Lb M) (hclosed : GClosed g)
    (hnd : GNodupIds g) (hlog : LogInv L)
    (hpar : (gEdgePairs g).Nodup) :
    gSize (projectIntoGraph L g) ≤ L.edges.card := by
  obtain ⟨hnd', hmem, hchar⟩ := projectIntoGraph_spec L g hclosed hnd hlog
  have hentry := projection_entry_edges L g hclosed hnd hlog
  -- size equals the length of the projected pair list
  have hsize : gSize (projectIntoGraph L g) = (gEdgePairs (projectIntoGraph L g)).length := by
    unfold gSize gEdgePairs
    rw [List.length_map]
  -- pairs of the global graph, decomposed
  have hgnd := (List.nodup_flatMap.1 ((gEdgePairs_eq_flatMap g) ▸ hpar))
  -- every projected pair is in the log's edge set
  have hsub : ∀ p ∈ gEdgePairs (projectIntoGraph L g), p ∈ L.edges := by
    intro p hp
    rw [gEdgePairs_eq_flatMap] at hp
    obtain ⟨n', hn', hpe⟩ := List.mem_flatMap.1 hp
    obtain ⟨e, he, hpe'⟩ := List.mem_map.1 hpe
    obtain ⟨n, hng, hnid, hedges⟩ := hentry n' hn'
    rw [hedges] at he
    unfold keptEdges at he
    have := List.of_mem_filter he
    rw [← hpe', ← hnid]
    exact of_decide_eq_true this
  -- the projected pair list has no duplicates
  have hprnd : (gEdgePairs (projectIntoGraph L g)).Nodup := by
    rw [gEdgePairs_eq_flatMap]
    rw [List.nodup_flatMap]
    constructor
    · intro n' hn'
      obtain ⟨n, hng, hnid, hedges⟩ := hentry n' hn'
      rw [hedges]
      have hinner : (n.edges.map (fun e => (n.id, e.1))).Nodup := hgnd.1 n hng
      have hsubl : List.Sublist ((keptEdges L n).map (fun e => (n.id, e.1)))
          (n.edges.map (fun e => (n.id, e.1))) := by
        unfold keptEdges
        exact (List.filter_sublist _).map _
      have hkept := hinner.sublist hsubl
      have hfuneq : (fun e : I × M => (n'.id, e.1)) = (fun e : I × M => (n.id, e.1)) := by
        funext e
        rw [hnid]
      rw [hfuneq]
      exact hkept
    · have hids : (gIds (projectIntoGraph L g)).Nodup := hnd'
      unfold gIds at hids
      have hp2 : (projectIntoGraph L g).Pairwise (fun a b => a.id ≠ b.id) :=
        List.pairwise_map.1 hids
      refine List.Pairwise.imp ?_ hp2
      intro a b hab x hxa hxb
      obtain ⟨ea, _, hea⟩ := List.mem_map.1 hxa
      obtain ⟨eb, _, heb⟩ := List.mem_map.1 hxb
      apply hab
      have h3 : (a.id, ea.1) = (b.id, eb.1) := by rw [hea, heb]
      exact (Prod.ext_iff.1 h3).1
  rw [hsize, ← List.toFinset_card_of_nodup hprnd]
  refine Finset.card_le_card ?_
  intro p hp
  exact hsub p (List.mem_toFinset.1 hp)

/-- Graph of the C5 counterexample: nodes 0 and 1, three parallel edges from
0 to 1. -/
def c5G : GGraph Nat Unit Nat Unit :=
  [{ id := 0, data := (), label := 0, edges := [(1, ()), (1, ()), (1, ())] },
   { id := 1, data := (), label := 1, edges := [] }]

/-- Log of the C5 counterexample, built like `TraversalLog::from`: node ids
0, 1, 2 and edge pairs (0,1) and (2,2); ids 2 are absent from `c5G`. -/
def c5Log : TLog Nat := logFromList [(0, 1), (2, 2)]

/-- Counterexample to claim C5 as stated: the projection of `c5Log` into
`c5G` has 2 nodes while the log has 3 node ids, and it keeps 3 parallel
edges while the log has 2 edge pairs — falsifying both the claimed node
count and the claimed size bound at one input. -/
theorem c5_counterexample :
    ¬ (gOrder (projectIntoGraph c5Log c5G) = c5Log.nodes.card
       ∧ gSize (projectIntoGraph c5Log c5G) ≤ c5Log.edges.card) := by
  decide

/-- Claim C5, amended: for a log whose edge pairs have endpoints in its node
set (which claim C10 guarantees for every log a public operation produces),
the projection's node count is the number of log node ids present in the
graph — not `card L.nodes` — and its edge count is bounded by the log's edge
pair count provided the graph has no duplicate parallel edges; with parallel
edges the projection can exceed `card L.edges`, as `c5_counterexample`
shows. -/
theorem c5_projection_order_size {I D Lb M : Type} [DecidableEq I]
    (L : TLog I) (g : GGraph I D Lb M) (hclosed : GClosed g)
    (hnd : GNodupIds g) (hlog : LogInv L) :
    gOrder (projectIntoGraph L g) = (L.nodes ∩ (gIds g).toFinset).card
    ∧ ((gEdgePairs g).Nodup → gSize (projectIntoGraph L g) ≤ L.edges.card) :=
  ⟨c5_order_eq L g hclosed hnd hlog,
   fun hpar => c5_size_le L g hclosed hnd hlog hpar⟩

/-- Parallel-edge-free variant used to witness the amended C5. -/
def c5W : GGraph Nat Unit Nat Unit :=
  [{ id := 0, data := (), label := 0, edges := [(1, ())] },
   { id := 1, data := (), label := 1, edges := [] }]

/-- Witness for C5: the amended statement applied at a concrete graph and
log, all hypotheses discharged by computation. -/
theorem c5_projection_order_size_witness :
    gOrder (projectIntoGraph c5Log c5W) = (c5Log.nodes ∩ (gIds c5W).toFinset).card
    ∧ gSize (projectIntoGraph c5Log c5W) ≤ c5Log.edges.card := by
  have h := c5_projection_order_size c5Log c5W (by decide) (by decide) (by decide)
  exact ⟨h.1, h.2 (by decide)⟩

/-- Graph of scenario S3: two parallel edges 0 to 1, one edge 1 to 2. -/
def s3G : GGraph Nat Unit Nat Unit :=
  [{ id := 0, data := (), label := 0, edges := [(1, ()), (1, ())] },
   { id := 1, data := (), label := 1, edges := [(2, ())] },
   { id := 2, data := (), label := 2, edges := [] }]

/-- Adjacency of `s3G` as seen by the traversal engine. -/
def s3Adj : Nat → List Nat :=
  fun n => if n = 0 then [1, 1] else if n = 1 then [2] else []

/-- The S3 callback: `Backtrack` at depth > 1, `Continue` otherwise (the
doctest of `project_into_graph`). -/
def s3Callback : TMeta Nat → Nat → Nat → Unit → Unit × Instruction Unit :=
  fun meta _ _ st =>
    (st, if 1 < meta.depth then Instruction.backtrack () else Instruction.cont ())

/-- The S3 run: BFS in the default Simple mode from node 0. -/
def s3Log : TLog Nat :=
  (runTraversal s3Adj .simple .bfs s3Callback 10 (initState s3Adj 0 ())).log

/-- Counterexample to claim C6 as stated: in scenario S3 node 2 is *not*
absent from the projection — `Backtrack` records the popped edge and both of
its endpoints, so the log contains node 2 and the pair (1,2), and the
projection keeps them (matching the doctest of `project_into_graph`, which
asserts nodes 0, 1, 2). -/
theorem c6_counterexample : ¬ ((2 : Nat) ∉ gIds (projectIntoGraph s3Log s3G)) := by
  decide

/-- Claim C6, amended: the projection preserves edge multiplicity — every
node of `g` whose id the log visited keeps exactly its edges whose pair the
log recorded, duplicates and order included. In scenario S3, node 0 of the
projection still has two parallel edges to node 1, and node 2 is present
(with edge (1,2) kept) rather than absent. -/
theorem c6_projection_preserves_parallel_edges {I D Lb M : Type} [DecidableEq I]
    (L : TLog I) (g : GGraph I D Lb M) (hclosed : GClosed g)
    (hnd : GNodupIds g) (hlog : LogInv L) :
    (∀ n ∈ g, n.id ∈ L.nodes →
      gfind (projectIntoGraph L g) n.id
        = some { id := n.id, data := n.data, label := n.label,
                 edges := keptEdges L n })
    ∧ (gfind (projectIntoGraph s3Log s3G) 0
        = some { id := 0, data := (), label := 0, edges := [(1, ()), (1, ())] }
       ∧ (2 : Nat) ∈ gIds (projectIntoGraph s3Log s3G)
       ∧ s3Log.nodes = {0, 1, 2} ∧ s3Log.edges = {(0, 1), (1, 2)}) := by
  exact ⟨(projectIntoGraph_spec L g hclosed hnd hlog).2.2,
    by decide, by decide, by decide, by decide⟩

/-- Witness for C6: the amended statement applied at the S3 graph and log,
hypotheses discharged by computation. -/
theorem c6_projection_preserves_parallel_edges_witness :
    gfind (projectIntoGraph s3Log s3G) 1
      = some { id := 1, data := (), label := (1 : Nat),
               edges := keptEdges s3Log
                 { id := 1, data := (), label := 1, edges := [(2, ())] } } :=
  (c6_projection_preserves_parallel_edges s3Log s3G (by decide) (by decide)
    (by decide)).1
    { id := 1, data := (), label := 1, edges := [(2, ())] } (by decide) (by decide)

/-- Graph inversion (`ConcreteGraph::invert`, graph.rs lines 209-238): every
node is ensured in the output via `new_derived` (annotations and edges
dropped), and each edge (u to v, m) of the input becomes an edge (v to u, m)
pushed onto v's list via `derive_edge`. The Rust loop holds the target node
inside the edge; the model recovers it by lookup in `g`, which succeeds on
closed graphs. -/
def invertG {I D Lb M : Type} [DecidableEq I] (g : GGraph I D Lb M) :
    GGraph I D Lb M :=
  g.foldl
    (fun out u =>
      u.edges.foldl
        (fun acc e =>
          match gfind g e.1 with
          | some tgt => pushEdge (ensureNode acc tgt) e.1 u.id e.2
          | none => acc)
        (ensureNode out u))
    []

/-- The nodes of a graph as (id, data, label) triples, edges forgotten: the
structural node content claim C7 compares. -/
def nodeKeys {I D Lb M : Type} (g : GGraph I D Lb M) : List (I × D × Lb) :=
  g.map (fun n => (n.id, n.data, n.label))

theorem gAllEdges_append {I D Lb M : Type} (g₁ g₂ : GGraph I D Lb M) :
    gAllEdges (g₁ ++ g₂) = gAllEdges g₁ ++ gAllEdges g₂ := by
  unfold gAllEdges
  rw [List.flatMap_append]

theorem gAllEdges_ensureNode {I D Lb M : Type} [DecidableEq I]
    (g : GGraph I D Lb M) (n : GNode I D Lb M) :
    gAllEdges (ensureNode g n) = gAllEdges g := by
  unfold ensureNode
  by_cases hs : (gfind g n.id).isSome
  · rw [if_pos hs]
  · rw [if_neg hs, gAllEdges_append]
    simp [gAllEdges, GNode.derived]

theorem nodeKeys_ensureNode {I D Lb M : Type} [DecidableEq I]
    (g : GGraph I D Lb M) (n : GNode I D Lb M) :
    nodeKeys (ensureNode g n) = nodeKeys g
    ∨ nodeKeys (ensureNode g n) = nodeKeys g ++ [(n.id, n.data, n.label)] := by
  unfold ensureNode
  by_cases hs : (gfind g n.id).isSome
  · rw [if_pos hs]
    exact Or.inl rfl
  · rw [if_neg hs]
    refine Or.inr ?_
    unfold nodeKeys
    simp [GNode.derived]

theorem nodeKeys_pushEdge {I D Lb M : Type} [DecidableEq I]
    (g : GGraph I D Lb M) (i t : I) (m : M) :
    nodeKeys (pushEdge g i t m) = nodeKeys g := by
  unfold nodeKeys pushEdge
  rw [List.map_map]
  congr 1
  funext n
  by_cases h : n.id = i <;> simp [h]

theorem pushEdge_of_absent {I D Lb M : Type} [DecidableEq I]
    {g : GGraph I D Lb M} {i : I} (h : ∀ n ∈ g, n.id ≠ i) (t : I) (m : M) :
    pushEdge g i t m = g := by
  unfold pushEdge
  induction g with
  | nil => rfl
  | cons a rest ih =>
    rw [List.map_cons]
    rw [if_neg (h a (List.mem_cons_self a rest))]
    rw [ih (fun n hn => h n (List.mem_cons_of_mem a hn))]

theorem gAllEdges_pushEdge_perm {I D Lb M : Type} [DecidableEq I]
    {g : GGraph I D Lb M} (hnd : GNodupIds g) {i : I} (hin : i ∈ gIds g)
    (t : I) (m : M) :
    List.Perm (gAllEdges (pushEdge g i t m)) ((i, t, m) :: gAllEdges g) := by
  induction g with
  | nil => simp [gIds] at hin
  | cons a rest ih =>
    have hnd' : GNodupIds rest := by
      unfold GNodupIds gIds at hnd ⊢
      rw [List.map_cons, List.nodup_cons] at hnd
      exact hnd.2
    by_cases hai : a.id = i
    · have habs : ∀ n ∈ rest, n.id ≠ i := by
        intro n hn he
        unfold GNodupIds gIds at hnd
        rw [List.map_cons, List.nodup_cons] at hnd
        exact hnd.1 (by rw [hai, ← he]; exact List.mem_map.2 ⟨n, hn, rfl⟩)
      unfold pushEdge
      rw [List.map_cons, if_pos hai]
      have hrest : List.map (fun n => if n.id = i then
          { n with edges := n.edges ++ [(t, m)] } else n) rest = rest := by
        have h0 := pushEdge_of_absent habs t m
        unfold pushEdge at h0
        exact h0
      rw [hrest]
      unfold gAllEdges
      rw [List.flatMap_cons, List.flatMap_cons]
      simp only [List.map_append, List.map_cons, List.map_nil]
      rw [hai, List.append_assoc]
      simp only [List.singleton_append]
      exact List.perm_middle
    · have hin2 : i ∈ gIds rest := by
        unfold gIds at hin ⊢
        rcases List.mem_cons.1 hin with h1 | h1
        · exact absurd h1.symm hai
        · exact h1
      unfold pushEdge
      rw [List.map_cons, if_neg hai]
      have hmain := ih hnd' hin2
      unfold pushEdge at hmain
      unfold gAllEdges at hmain ⊢
      rw [List.flatMap_cons, List.flatMap_cons]
      refine List.Perm.trans (List.Perm.append_left _ hmain) ?_
      exact List.perm_middle

/-- Invariants of the inversion accumulator: distinct ids; every node is a
derived copy of a `g` node (same id, data and label); every accumulated edge
targets the id of a `g` node. -/
def InvAcc {I D Lb M : Type} [DecidableEq I] (g out : GGraph I D Lb M) : Prop :=
  GNodupIds out
  ∧ (∀ n' ∈ out, ∃ n ∈ g, n.id = n'.id ∧ n'.data = n.data ∧ n'.label = n.label)
  ∧ (∀ n' ∈ out, ∀ e ∈ n'.edges, ∃ w ∈ g, w.id = e.1)

/-- The outer fold of `invert`, with the node list still to process made
explicit. -/
def invFold {I D Lb M : Type} [DecidableEq I] (g : GGraph I D Lb M)
    (rest : List (GNode I D Lb M)) (out : GGraph I D Lb M) : GGraph I D Lb M :=
  rest.foldl
    (fun out u =>
      u.edges.foldl
        (fun acc e =>
          match gfind g e.1 with
          | some tgt => pushEdge (ensureNode acc tgt) e.1 u.id e.2
          | none => acc)
        (ensureNode out u))
    out

theorem invertG_eq_invFold {I D Lb M : Type} [DecidableEq I]
    (g : GGraph I D Lb M) : invertG g = invFold g g [] := rfl

theorem invAcc_ensureNode {I D Lb M : Type} [DecidableEq I]
    {g out : GGraph I D Lb M} (h : InvAcc g out) {n : GNode I D Lb M}
    (hn : n ∈ g) : InvAcc g (ensureNode out n) := by
  obtain ⟨h1, h2, h3⟩ := h
  refine ⟨nodup_ensureNode h1 n, ?_, ?_⟩
  · intro n' hn'
    rcases mem_ensureNode hn' with hm | hm
    · exact h2 n' hm
    · exact ⟨n, hn, by rw [hm]; simp [GNode.derived],
        by rw [hm]; simp [GNode.derived], by rw [hm]; simp [GNode.derived]⟩
  · intro n' hn' e he
    rcases mem_ensureNode hn' with hm | hm
    · exact h3 n' hm e he
    · rw [hm] at he
      simp [GNode.derived] at he

theorem invInner_spec {I D Lb M : Type} [DecidableEq I] (g : GGraph I D Lb M)
    (u : GNode I D Lb M) (hu : u ∈ g) :
    ∀ (es : List (I × M)) (acc : GGraph I D Lb M),
      (∀ e ∈ es, ∃ tgt ∈ g, tgt.id = e.1) → InvAcc g acc →
      InvAcc g (es.foldl
        (fun acc e =>
          match gfind g e.1 with
          | some tgt => pushEdge (ensureNode acc tgt) e.1 u.id e.2
          | none => acc) acc)
      ∧ List.Perm
          (gAllEdges (es.foldl
            (fun acc e =>
              match gfind g e.1 with
              | some tgt => pushEdge (ensureNode acc tgt) e.1 u.id e.2
              | none => acc) acc))
          (es.map (fun e => (e.1, u.id, e.2)) ++ gAllEdges acc)
      ∧ (∀ x ∈ gIds acc, x ∈ gIds (es.foldl
          (fun acc e =>
            match gfind g e.1 with
            | some tgt => pushEdge (ensureNode acc tgt) e.1 u.id e.2
            | none => acc) acc)) := by
  intro es
  induction es with
  | nil =>
    intro acc _ hacc
    refine ⟨hacc, by simp, fun x hx => hx⟩
  | cons e rest ih =>
    intro acc hcl hacc
    obtain ⟨tgt0, htgt0, hid0⟩ := hcl e (List.mem_cons_self e rest)
    have hfs : (gfind g e.1).isSome := (gfind_isSome_iff g e.1).2 ⟨tgt0, htgt0, hid0⟩
    rcases hfg : gfind g e.1 with _ | tgt
    · rw [hfg] at hfs
      simp at hfs
    have htgtmem : tgt ∈ g := gfind_mem hfg
    have htgtid : tgt.id = e.1 := gfind_id hfg
    have hstep : List.foldl
        (fun acc e =>
          match gfind g e.1 with
          | some tgt => pushEdge (ensureNode acc tgt) e.1 u.id e.2
          | none => acc) acc (e :: rest)
        = List.foldl
          (fun acc e =>
            match gfind g e.1 with
            | some tgt => pushEdge (ensureNode acc tgt) e.1 u.id e.2
            | none => acc)
          (pushEdge (ensureNode acc tgt) e.1 u.id e.2) rest := by
      rw [List.foldl_cons, hfg]
    have hacc1 : InvAcc g (ensureNode acc tgt) := invAcc_ensureNode hacc htgtmem
    have hin1 : e.1 ∈ gIds (ensureNode acc tgt) := by
      have hsome : (gfind (ensureNode acc tgt) tgt.id).isSome := by
        rw [gfind_ensureNode_self]
        rcases gfind acc tgt.id <;> rfl
      rw [htgtid] at hsome
      rcases hf2 : gfind (ensureNode acc tgt) e.1 with _ | n
      · rw [hf2] at hsome
        simp at hsome
      · exact (mem_gIds_iff _ e.1).2 ⟨n, gfind_mem hf2, gfind_id hf2⟩
    have hacc2 : InvAcc g (pushEdge (ensureNode acc tgt) e.1 u.id e.2) := by
      obtain ⟨h1, h2, h3⟩ := hacc1
      refine ⟨nodup_pushEdge h1 e.1 u.id e.2, ?_, ?_⟩
      · intro n' hn'
        obtain ⟨n, hn, he'⟩ := mem_pushEdge hn'
        by_cases hni : n.id = e.1
        · rw [he', if_pos hni]
          obtain ⟨w, hw, hwid, hwd, hwl⟩ := h2 n hn
          exact ⟨w, hw, hwid, hwd, hwl⟩
        · rw [he', if_neg hni]
          exact h2 n hn
      · intro n' hn' e' he'
        obtain ⟨n, hn, heq⟩ := mem_pushEdge hn'
        by_cases hni : n.id = e.1
        · rw [heq, if_pos hni] at he'
          simp only at he'
          rcases List.mem_append.1 he' with h4 | h4
          · exact h3 n hn e' h4
          · have : e' = (u.id, e.2) := by simpa using h4
            exact ⟨u, hu, by rw [this]⟩
        · rw [heq, if_neg hni] at he'
          exact h3 n hn e' he'
    have hcl' : ∀ e' ∈ rest, ∃ t ∈ g, t.id = e'.1 :=
      fun e' he' => hcl e' (List.mem_cons_of_mem e he')
    obtain ⟨ih1, ih2, ih3⟩ := ih (pushEdge (ensureNode acc tgt) e.1 u.id e.2) hcl' hacc2
    have hperm2 : List.Perm (gAllEdges (pushEdge (ensureNode acc tgt) e.1 u.id e.2))
        ((e.1, u.id, e.2) :: gAllEdges acc) := by
      have hp := gAllEdges_pushEdge_perm hacc1.1 hin1 u.id e.2
      rw [gAllEdges_ensureNode] at hp
      exact hp
    refine ⟨?_, ?_, ?_⟩
    · rw [hstep]
      exact ih1
    · rw [hstep]
      refine List.Perm.trans ih2 ?_
      simp only [List.map_cons]
      refine List.Perm.trans (List.Perm.append_left _ hperm2) ?_
      exact List.perm_middle
    · intro x hx
      rw [hstep]
      refine ih3 x ?_
      rw [gIds_pushEdge]
      rcases gIds_ensureNode acc tgt with h | h
      · rw [h]
        exact hx
      · rw [h]
        exact List.mem_append_left _ hx

theorem invOuter_spec {I D Lb M : Type} [DecidableEq I] (g : GGraph I D Lb M)
    (hclosed : GClosed g) :
    ∀ (rest : List (GNode I D Lb M)) (out : GGraph I D Lb M),
      (∀ u ∈ rest, u ∈ g) → InvAcc g out →
      InvAcc g (invFold g rest out)
      ∧ List.Perm (gAllEdges (invFold g rest out))
          (rest.flatMap (fun u => u.edges.map (fun e => (e.1, u.id, e.2)))
            ++ gAllEdges out)
      ∧ (∀ x ∈ gIds out, x ∈ gIds (invFold g rest out))
      ∧ (∀ u ∈ rest, u.id ∈ gIds (invFold g rest out)) := by
  intro rest
  induction rest with
  | nil =>
    intro out _ hacc
    refine ⟨hacc, by simp [invFold], fun x hx => hx, ?_⟩
    intro u hu
    simp at hu
  | cons u rest' ih =>
    intro out hrest hacc
    have hug : u ∈ g := hrest u (List.mem_cons_self u rest')
    have hcl_u : ∀ e ∈ u.edges, ∃ tgt ∈ g, tgt.id = e.1 := hclosed u hug
    have hacc1 : InvAcc g (ensureNode out u) := invAcc_ensureNode hacc hug
    obtain ⟨j1, j2, j3⟩ := invInner_spec g u hug u.edges (ensureNode out u) hcl_u hacc1
    have hfold : invFold g (u :: rest') out
        = invFold g rest'
          (u.edges.foldl
            (fun acc e =>
              match gfind g e.1 with
              | some tgt => pushEdge (ensureNode acc tgt) e.1 u.id e.2
              | none => acc)
            (ensureNode out u)) := by
      unfold invFold
      rw [List.foldl_cons]
    have hrest' : ∀ w ∈ rest', w ∈ g :=
      fun w hw => hrest w (List.mem_cons_of_mem u hw)
    obtain ⟨k1, k2, k3, k4⟩ := ih _ hrest' j1
    have huid : u.id ∈ gIds (invFold g (u :: rest') out) := by
      rw [hfold]
      refine k3 u.id ?_
      refine j3 u.id ?_
      have hsome : (gfind (ensureNode out u) u.id).isSome := by
        rw [gfind_ensureNode_self]
        rcases gfind out u.id <;> rfl
      rcases hf2 : gfind (ensureNode out u) u.id with _ | n
      · rw [hf2] at hsome
        simp at hsome
      · exact (mem_gIds_iff _ u.id).2 ⟨n, gfind_mem hf2, gfind_id hf2⟩
    refine ⟨?_, ?_, ?_, ?_⟩
    · rw [hfold]
      exact k1
    · rw [hfold]
      refine List.Perm.trans k2 ?_
      have hj2' : List.Perm
          (gAllEdges (u.edges.foldl
            (fun acc e =>
              match gfind g e.1 with
              | some tgt => pushEdge (ensureNode acc tgt) e.1 u.id e.2
              | none => acc)
            (ensureNode out u)))
          (u.edges.map (fun e => (e.1, u.id, e.2)) ++ gAllEdges out) := by
        rw [gAllEdges_ensureNode] at j2
        exact j2
      refine List.Perm.trans (List.Perm.append_left _ hj2') ?_
      rw [List.flatMap_cons, List.append_assoc]
      rw [← List.append_assoc, ← List.append_assoc]
      refine List.Perm.append_right _ ?_
      exact List.perm_append_comm
    · intro x hx
      rw [hfold]
      refine k3 x ?_
      refine j3 x ?_
      rcases gIds_ensureNode out u with h | h
      · rw [h]
        exact hx
      · rw [h]
        exact List.mem_append_left _ hx
    · intro w hw
      rcases List.mem_cons.1 hw with h1 | h1
      · rw [h1]
        exact huid
      · rw [hfold]
        exact k4 w h1

/-- The edge triple reversal: (u, v, m) becomes (v, u, m). -/
def swapTriple {I M : Type} (tr : I × I × M) : I × I × M :=
  (tr.2.1, tr.1, tr.2.2)

theorem map_swapTriple_gAllEdges {I D Lb M : Type} (g : GGraph I D Lb M) :
    (gAllEdges g).map swapTriple
      = g.flatMap (fun u => u.edges.map (fun e => (e.1, u.id, e.2))) := by
  unfold gAllEdges
  rw [List.map_flatMap]
  simp only [List.map_map]
  rfl

/-- Single-inversion characterization: the inverted graph is duplicate-free
and closed, its node keys (id, data, label) form the same set as the input's,
and its edge multiset is the input's with every edge reversed. -/
theorem invertG_spec {I D Lb M : Type} [DecidableEq I] (g : GGraph I D Lb M)
    (hclosed : GClosed g) (hnd : GNodupIds g) :
    GNodupIds (invertG g)
    ∧ GClosed (invertG g)
    ∧ (∀ x, x ∈ gIds (invertG g) ↔ x ∈ gIds g)
    ∧ (∀ n' ∈ invertG g, ∃ n ∈ g, n.id = n'.id ∧ n'.data = n.data ∧ n'.label = n.label)
    ∧ (∀ n ∈ g, ∃ n' ∈ invertG g, n.id = n'.id ∧ n'.data = n.data ∧ n'.label = n.label)
    ∧ List.Perm (gAllEdges (invertG g)) ((gAllEdges g).map swapTriple) := by
  have hbase : InvAcc g [] := by
    refine ⟨?_, ?_, ?_⟩
    · unfold GNodupIds gIds
      simp
    · intro n' hn'
      simp at hn'
    · intro n' hn'
      simp at hn'
  obtain ⟨h1, h2, h3, h4⟩ := invOuter_spec g hclosed g [] (fun u hu => hu) hbase
  rw [← invertG_eq_invFold] at h1 h2 h3 h4
  have hids : ∀ x, x ∈ gIds (invertG g) ↔ x ∈ gIds g := by
    intro x
    constructor
    · intro hx
      obtain ⟨n', hn', hid⟩ := (mem_gIds_iff _ x).1 hx
      obtain ⟨n, hn, hnid, _, _⟩ := h1.2.1 n' hn'
      exact (mem_gIds_iff g x).2 ⟨n, hn, by rw [hnid, hid]⟩
    · intro hx
      obtain ⟨n, hn, hnid⟩ := (mem_gIds_iff g x).1 hx
      rw [← hnid]
      exact h4 n hn
  refine ⟨h1.1, ?_, hids, h1.2.1, ?_, ?_⟩
  · intro n' hn' e he
    obtain ⟨w, hw, hwid⟩ := h1.2.2 n' hn' e he
    have : e.1 ∈ gIds (invertG g) := (hids e.1).2 ((mem_gIds_iff g e.1).2 ⟨w, hw, hwid⟩)
    obtain ⟨t, ht, htid⟩ := (mem_gIds_iff _ e.1).1 this
    exact ⟨t, ht, htid⟩
  · intro n hn
    have : n.id ∈ gIds (invertG g) := h4 n hn
    obtain ⟨n', hn', hid⟩ := (mem_gIds_iff _ n.id).1 this
    obtain ⟨w, hw, hwid, hwd, hwl⟩ := h1.2.1 n' hn'
    have hwn : w = n := nodup_id_inj hnd hw hn (by rw [hwid, hid])
    rw [hwn] at hwd hwl
    exact ⟨n', hn', hid.symm, hwd, hwl⟩
  · rw [map_swapTriple_gAllEdges]
    refine List.Perm.trans h2 ?_
    have hnil : gAllEdges ([] : GGraph I D Lb M) = [] := rfl
    rw [hnil, List.append_nil]

theorem swapTriple_swapTriple {I M : Type} (tr : I × I × M) :
    swapTriple (swapTriple tr) = tr := rfl

theorem nodeKeys_invertG_toFinset {I D Lb M : Type} [DecidableEq I]
    [DecidableEq D] [DecidableEq Lb] (g : GGraph I D Lb M)
    (hclosed : GClosed g) (hnd : GNodupIds g) :
    (nodeKeys (invertG g)).toFinset = (nodeKeys g).toFinset := by
  obtain ⟨h1, h2, hids, hmem, hmem2, _⟩ := invertG_spec g hclosed hnd
  ext k
  simp only [List.mem_toFinset]
  unfold nodeKeys
  simp only [List.mem_map]
  constructor
  · rintro ⟨n', hn', rfl⟩
    obtain ⟨n, hn, hnid, hnd', hnl⟩ := hmem n' hn'
    exact ⟨n, hn, by rw [hnid, ← hnd', ← hnl]⟩
  · rintro ⟨n, hn, rfl⟩
    obtain ⟨n', hn', hnid, hnd', hnl⟩ := hmem2 n hn
    exact ⟨n', hn', by rw [← hnid, hnd', hnl]⟩

/-- Claim C7: double inversion is the structural identity. For every graph
satisfying the data-model invariants (every edge target present in the node
map, one node per id — invariants every publicly built graph maintains), the
node set of `invert(invert(G))` — ids with their data and labels — equals
that of `G`, and its edge multiset — (origin, target, metadata) triples —
equals that of `G`. -/
theorem c7_invert_involutive {I D Lb M : Type} [DecidableEq I] [DecidableEq D]
    [DecidableEq Lb] (g : GGraph I D Lb M) (hclosed : GClosed g)
    (hnd : GNodupIds g) :
    (nodeKeys (invertG (invertG g))).toFinset = (nodeKeys g).toFinset
    ∧ ((gAllEdges (invertG (invertG g)) : Multiset (I × I × M))
        = (gAllEdges g : Multiset (I × I × M))) := by
  obtain ⟨s1nd, s1cl, _, _, _, s1perm⟩ := invertG_spec g hclosed hnd
  obtain ⟨_, _, _, _, _, s2perm⟩ := invertG_spec (invertG g) s1cl s1nd
  constructor
  · rw [nodeKeys_invertG_toFinset (invertG g) s1cl s1nd,
        nodeKeys_invertG_toFinset g hclosed hnd]
  · have hperm : List.Perm (gAllEdges (invertG (invertG g))) (gAllEdges g) := by
      refine List.Perm.trans s2perm ?_
      have hp := s1perm.map swapTriple
      refine List.Perm.trans hp ?_
      rw [List.map_map]
      have hfun : (swapTriple ∘ swapTriple : I × I × M → I × I × M) = id := by
        funext tr
        exact swapTriple_swapTriple tr
      rw [hfun, List.map_id]
    exact Multiset.coe_eq_coe.2 hperm

/-- Witness for C7: the involution applied to a concrete closed graph. -/
theorem c7_invert_involutive_witness :
    (nodeKeys (invertG (invertG c5W))).toFinset = (nodeKeys c5W).toFinset
    ∧ ((gAllEdges (invertG (invertG c5W)) : Multiset (Nat × Nat × Unit))
        = (gAllEdges c5W : Multiset (Nat × Nat × Unit))) :=
  c7_invert_involutive c5W (by decide) (by decide)

/-- Rust `char::is_ascii_alphabetic`. -/
def isAsciiAlphabetic (c : Char) : Bool :=
  decide (('a' ≤ c ∧ c ≤ 'z') ∨ ('A' ≤ c ∧ c ≤ 'Z'))

/-- Rust `char::is_ascii_digit`, the digit half of
`char::is_ascii_alphanumeric`. -/
def isAsciiDigit (c : Char) : Bool :=
  decide ('0' ≤ c ∧ c ≤ '9')

/-- Rust `char::is_ascii_alphanumeric`. -/
def isAsciiAlphanumeric (c : Char) : Bool :=
  isAsciiAlphabetic c || isAsciiDigit c

/-- Embedding of `Identity::escaped` (identify.rs lines 27-53), applied to
the display string's character list: the first character is kept when
alphabetic or underscore, prefixed with an underscore when it is another
alphanumeric (a digit), and replaced by an underscore otherwise; every
subsequent character is kept when alphanumeric or underscore and replaced by
an underscore otherwise. -/
def escapedChars : List Char → List Char
  | [] => []
  | first :: rest =>
    (if isAsciiAlphabetic first || first = '_' then [first]
     else if isAsciiAlphanumeric first then ['_', first]
     else ['_'])
    ++ rest.map (fun c => if isAsciiAlphanumeric c || c = '_' then c else '_')

/-- `Identity::escaped` on a display string. -/
def escaped (s : String) : String := ⟨escapedChars s.data⟩

/-- Counterexample to claim C9 as stated: the display string of the chunk id
5 is "5"; its escaped form is "_5" — the leading digit maps to *two* output
characters, so the escaped form is longer than the display string. -/
theorem c9_counterexample :
    ¬ ((escaped (Nat.repr 5)).length = (Nat.repr 5).length) := by
  decide

theorem escaped_tail_ok (rest : List Char) :
    ∀ c ∈ rest.map (fun c => if isAsciiAlphanumeric c || c = '_' then c else '_'),
      (isAsciiAlphanumeric c || c = '_') = true := by
  intro c hc
  obtain ⟨x, _, hx⟩ := List.mem_map.1 hc
  by_cases h : (isAsciiAlphanumeric x || x = '_') = true
  · rw [if_pos h] at hx
    rw [← hx]
    exact h
  · rw [if_neg h] at hx
    rw [← hx]
    decide

/-- Claim C9, amended: `escaped` of a display string starts with an
alphabetic character or an underscore, every later character is alphanumeric
or an underscore, and the length equals the input length *except* when the
first character is a digit (alphanumeric but neither alphabetic nor an
underscore), in which case an underscore is prepended and the output is one
character longer. -/
theorem c9_escaped_shape (s : String) :
    (∀ c0, (escaped s).data.head? = some c0 →
      (isAsciiAlphabetic c0 || c0 = '_') = true)
    ∧ (∀ c ∈ (escaped s).data.tail, (isAsciiAlphanumeric c || c = '_') = true)
    ∧ (escaped s).length = s.length
        + (match s.data with
           | [] => 0
           | c :: _ =>
             if (isAsciiAlphabetic c || c = '_') = false
                ∧ isAsciiAlphanumeric c = true then 1 else 0) := by
  have hdata : (escaped s).data = escapedChars s.data := rfl
  have hlen : (escaped s).length = (escapedChars s.data).length := rfl
  have hslen : s.length = s.data.length := rfl
  rcases hs : s.data with _ | ⟨first, rest⟩
  · refine ⟨?_, ?_, ?_⟩
    · intro c0 hc0
      rw [hdata, hs] at hc0
      simp [escapedChars] at hc0
    · intro c hc
      rw [hdata, hs] at hc
      simp [escapedChars] at hc
    · rw [hlen, hslen, hs]
      simp [escapedChars]
  · by_cases h1 : (isAsciiAlphabetic first || first = '_') = true
    · refine ⟨?_, ?_, ?_⟩
      · intro c0 hc0
        rw [hdata, hs] at hc0
        simp only [escapedChars, h1, if_true, List.singleton_append,
          List.head?_cons, Option.some.injEq] at hc0
        rw [← hc0]
        exact h1
      · intro c hc
        rw [hdata, hs] at hc
        simp only [escapedChars, h1, if_true, List.singleton_append,
          List.tail_cons] at hc
        exact escaped_tail_ok rest c hc
      · rw [hlen, hslen, hs]
        simp [escapedChars, h1]
    · by_cases h2 : isAsciiAlphanumeric first = true
      · refine ⟨?_, ?_, ?_⟩
        · intro c0 hc0
          rw [hdata, hs] at hc0
          simp [escapedChars, h1, h2] at hc0
          subst hc0
          decide
        · intro c hc
          rw [hdata, hs] at hc
          simp only [escapedChars, h1, if_false, h2, if_true,
            List.cons_append, List.tail_cons, List.singleton_append] at hc
          rcases List.mem_cons.1 hc with h3 | h3
          · rw [h3]
            simp [h2]
          · exact escaped_tail_ok rest c h3
        · rw [hlen, hslen, hs]
          simp only [escapedChars, h1, if_false, h2, if_true]
          simp [h1, h2, Nat.add_comm]
      · refine ⟨?_, ?_, ?_⟩
        · intro c0 hc0
          rw [hdata, hs] at hc0
          simp [escapedChars, h1, h2] at hc0
          subst hc0
          decide
        · intro c hc
          rw [hdata, hs] at hc
          simp only [escapedChars, h1, if_false, h2, if_false,
            List.singleton_append, List.tail_cons] at hc
          exact escaped_tail_ok rest c hc
        · rw [hlen, hslen, hs]
          simp [escapedChars, h1, h2]

/-- Witness for C9: the amended shape theorem applied to a concrete display
string, the head hypothesis discharged by computation. -/
theorem c9_escaped_shape_witness :
    (escaped "a5").data.head? = some 'a'
    ∧ (isAsciiAlphabetic 'a' || 'a' = '_') = true :=
  ⟨rfl, (c9_escaped_shape "a5").1 'a' rfl⟩

/-- `ImportType` (webpack-stats/src/common/import.rs lines 32-61). The
`Import` variant is spelled `importEs` because `import` is reserved. -/
inductive ImportType where
| requireContext
| importEs
| importDynamic
| require
| cjsSelfExport
| entry
| es6SideEffect
| es6ExportImport
| moduleDecorator
| url
| amdRequire
| empty
deriving DecidableEq

/-- The `matches!` test of the edge serializer (ser.rs lines 103-106):
`RequireContext | Import | ImportDynamic`. -/
def isAsyncImport : ImportType → Bool
  | .requireContext => true
  | .importEs => true
  | .importDynamic => true
  | _ => false

/-- One emitted node object (ser.rs lines 56-78): id, chunk (the node's
`ChunkId` annotation, null when absent), label. -/
structure NodeJson where
  id : String
  chunk : Option Nat
  label : String
deriving DecidableEq

/-- One emitted edge object (ser.rs lines 89-113): source and target module
ids, the async flag, and the importer (resolved module name from the edge
metadata). -/
structure EdgeJson where
  source : String
  target : String
  async : Bool
  importer : String
deriving DecidableEq

/-- First-occurrence deduplication by key: the `seen_set` filter of ser.rs
lines 114-126, keys being edge identities (origin id, target id). -/
def dedupByKey {A B : Type} [DecidableEq B] (key : A → B) (l : List A) :
    List A :=
  (l.foldl
    (fun (p : List A × Finset B) e =>
      if key e ∈ p.2 then p else (p.1 ++ [e], insert (key e) p.2))
    ([], ∅)).1

theorem dedupByKey_fold_spec {A B : Type} [DecidableEq B] (key : A → B) :
    ∀ (l : List A) (res : List A) (seen : Finset B),
      (res.map key).Nodup → (∀ b, b ∈ res.map key ↔ b ∈ seen) →
      (((l.foldl
        (fun (p : List A × Finset B) e =>
          if key e ∈ p.2 then p else (p.1 ++ [e], insert (key e) p.2))
        (res, seen)).1.map key).Nodup
      ∧ (∀ b, b ∈ (l.foldl
          (fun (p : List A × Finset B) e =>
            if key e ∈ p.2 then p else (p.1 ++ [e], insert (key e) p.2))
          (res, seen)).1.map key ↔ b ∈ (l.foldl
          (fun (p : List A × Finset B) e =>
            if key e ∈ p.2 then p else (p.1 ++ [e], insert (key e) p.2))
          (res, seen)).2)
      ∧ (∀ e ∈ l, key e ∈ (l.foldl
          (fun (p : List A × Finset B) e =>
            if key e ∈ p.2 then p else (p.1 ++ [e], insert (key e) p.2))
          (res, seen)).1.map key)
      ∧ (∃ tail, (l.foldl
          (fun (p : List A × Finset B) e =>
            if key e ∈ p.2 then p else (p.1 ++ [e], insert (key e) p.2))
          (res, seen)).1 = res ++ tail ∧ ∀ e ∈ tail, e ∈ l)) := by
  intro l
  induction l with
  | nil =>
    intro res seen h1 h2
    refine ⟨h1, h2, ?_, [], by simp⟩
    intro e he
    simp at he
  | cons a rest ih =>
    intro res seen h1 h2
    by_cases hk : key a ∈ seen
    · have hstep : List.foldl
          (fun (p : List A × Finset B) e =>
            if key e ∈ p.2 then p else (p.1 ++ [e], insert (key e) p.2))
          (res, seen) (a :: rest)
          = List.foldl
            (fun (p : List A × Finset B) e =>
              if key e ∈ p.2 then p else (p.1 ++ [e], insert (key e) p.2))
            (res, seen) rest := by
        rw [List.foldl_cons, if_pos hk]
      obtain ⟨k1, k2, k3, tail, k4, k5⟩ := ih res seen h1 h2
      rw [hstep]
      refine ⟨k1, k2, ?_, tail, k4, ?_⟩
      · intro e he
        rcases List.mem_cons.1 he with h3 | h3
        · have hres : key e ∈ res.map key := (h2 (key e)).2 (h3 ▸ hk)
          rw [k4, List.map_append]
          exact List.mem_append_left _ hres
        · exact k3 e h3
      · intro e he
        exact List.mem_cons_of_mem a (k5 e he)
    · have hstep : List.foldl
          (fun (p : List A × Finset B) e =>
            if key e ∈ p.2 then p else (p.1 ++ [e], insert (key e) p.2))
          (res, seen) (a :: rest)
          = List.foldl
            (fun (p : List A × Finset B) e =>
              if key e ∈ p.2 then p else (p.1 ++ [e], insert (key e) p.2))
            (res ++ [a], insert (key a) seen) rest := by
        rw [List.foldl_cons, if_neg hk]
      have h1a : ((res ++ [a]).map key).Nodup := by
        rw [List.map_append]
        rw [List.nodup_append]
        refine ⟨h1, List.nodup_singleton _, ?_⟩
        intro x hx
        simp only [List.map_cons, List.map_nil, List.mem_singleton]
        intro he
        refine hk ?_
        rw [← he]
        exact (h2 x).1 hx
      have h2a : ∀ b, b ∈ (res ++ [a]).map key ↔ b ∈ insert (key a) seen := by
        intro b
        rw [List.map_append, List.mem_append]
        simp only [List.map_cons, List.map_nil, List.mem_singleton,
          Finset.mem_insert]
        rw [h2 b]
        tauto
      obtain ⟨k1, k2, k3, tail, k4, k5⟩ := ih (res ++ [a]) (insert (key a) seen) h1a h2a
      rw [hstep]
      refine ⟨k1, k2, ?_, [a] ++ tail, ?_, ?_⟩
      · intro e he
        rcases List.mem_cons.1 he with h3 | h3
        · rw [k4, List.map_append]
          refine List.mem_append_left _ ?_
          rw [List.map_append]
          refine List.mem_append_right _ ?_
          simp [h3]
        · exact k3 e h3
      · rw [k4, List.append_assoc]
      · intro e he
        rcases List.mem_append.1 he with h3 | h3
        · have : e = a := by simpa using h3
          rw [this]
          exact List.mem_cons_self a rest
        · exact List.mem_cons_of_mem a (k5 e h3)

theorem dedupByKey_spec {A B : Type} [DecidableEq B] (key : A → B)
    (l : List A) :
    ((dedupByKey key l).map key).Nodup
    ∧ (∀ e ∈ l, key e ∈ (dedupByKey key l).map key)
    ∧ (∀ e ∈ dedupByKey key l, e ∈ l) := by
  have hbase1 : (([] : List A).map key).Nodup := by simp
  have hbase2 : ∀ b, b ∈ ([] : List A).map key ↔ b ∈ (∅ : Finset B) := by simp
  obtain ⟨k1, _, k3, tail, k4, k5⟩ := dedupByKey_fold_spec key l [] ∅ hbase1 hbase2
  unfold dedupByKey
  refine ⟨k1, k3, ?_⟩
  intro e he
  rw [k4] at he
  simp at he
  exact k5 e he

/-- Node serialization (ser.rs lines 56-87): one object per node of the
inverted module graph, in map order; `chunk` is the node's `ChunkId`
annotation or null. Annotations are per node object and each graph holds one
node per id, so they are passed as a map from node id. -/
def serializeNodes {D : Type} (g : GGraph String D String (ImportType × String))
    (ann : String → Option Nat) : List NodeJson :=
  g.map (fun n => { id := n.id, chunk := ann n.id, label := n.label })

/-- One edge object (ser.rs lines 91-113): source and target ids, the async
flag from the metadata's import type, the importer from the metadata's
resolved module name. -/
def edgeJson (tr : String × String × (ImportType × String)) : EdgeJson :=
  { source := tr.1, target := tr.2.1, async := isAsyncImport tr.2.2.1,
    importer := tr.2.2.2 }

/-- Edge serialization (ser.rs lines 114-131): `all_edges`, deduplicated by
edge identity (origin id, target id) keeping first occurrences, then
serialized. -/
def serializeEdges {D : Type}
    (g : GGraph String D String (ImportType × String)) : List EdgeJson :=
  (dedupByKey (fun tr => (tr.1, tr.2.1)) (gAllEdges g)).map edgeJson

/-- Claim C8: in the JSON serialization of an inverted module graph, the
async field of an edge is true exactly when the metadata's import type is
require-context, import, or import-dynamic; every emitted edge object comes
from an actual graph edge through `edgeJson`; each node's chunk field is its
`ChunkId` annotation (null when absent); at most one edge object is emitted
per (source, target) pair; and every edge pair of the graph is
represented. -/
theorem c8_serialization_rules {D : Type}
    (g : GGraph String D String (ImportType × String))
    (ann : String → Option Nat) :
    (∀ it, isAsyncImport it = true
      ↔ (it = ImportType.requireContext ∨ it = ImportType.importEs
          ∨ it = ImportType.importDynamic))
    ∧ (∀ ej ∈ serializeEdges g, ∃ tr ∈ gAllEdges g,
        ej = edgeJson tr ∧ ej.async = isAsyncImport tr.2.2.1)
    ∧ (∀ nj ∈ serializeNodes g ann, nj.chunk = ann nj.id)
    ∧ ((serializeEdges g).map (fun ej => (ej.source, ej.target))).Nodup
    ∧ (∀ tr ∈ gAllEdges g, ∃ ej ∈ serializeEdges g,
        ej.source = tr.1 ∧ ej.target = tr.2.1) := by
  obtain ⟨d1, d2, d3⟩ := dedupByKey_spec (fun tr => (tr.1, tr.2.1)) (gAllEdges g)
  refine ⟨?_, ?_, ?_, ?_, ?_⟩
  · intro it
    cases it <;> simp [isAsyncImport]
  · intro ej hej
    obtain ⟨tr, htr, hetr⟩ := List.mem_map.1 hej
    exact ⟨tr, d3 tr htr, hetr.symm, by rw [← hetr]; rfl⟩
  · intro nj hnj
    obtain ⟨n, _, hn⟩ := List.mem_map.1 hnj
    rw [← hn]
  · have hcomp : ((serializeEdges g).map (fun ej => (ej.source, ej.target)))
        = (dedupByKey (fun tr => (tr.1, tr.2.1)) (gAllEdges g)).map
            (fun tr => (tr.1, tr.2.1)) := by
      unfold serializeEdges
      rw [List.map_map]
      rfl
    rw [hcomp]
    exact d1
  · intro tr htr
    have := d2 tr htr
    obtain ⟨tr', htr', hk⟩ := List.mem_map.1 this
    refine ⟨edgeJson tr', List.mem_map.2 ⟨tr', htr', rfl⟩, ?_, ?_⟩
    · exact (Prod.ext_iff.1 hk).1
    · exact (Prod.ext_iff.1 hk).2

/-- Concrete module graph for the C8 witness: one duplicate (a, b) edge pair
with different metadata. -/
def c8G : GGraph String Unit String (ImportType × String) :=
  [{ id := "a", data := (), label := "a",
     edges := [("b", (ImportType.importDynamic, "b")),
               ("b", (ImportType.require, "b"))] },
   { id := "b", data := (), label := "b", edges := [] }]

/-- The annotation map of the C8 witness: module "a" carries chunk 7. -/
def c8Ann : String → Option Nat := fun s => if s = "a" then some 7 else none

/-- Witness for C8: the rules applied at a concrete graph — a node object is
emitted with its annotation as the chunk field, and the duplicate (a, b)
edge collapses to one emitted object. -/
theorem c8_serialization_rules_witness :
    (({ id := "a", chunk := some 7, label := "a" } : NodeJson)
        ∈ serializeNodes c8G c8Ann)
    ∧ ({ id := "a", chunk := some 7, label := "a" } : NodeJson).chunk = c8Ann "a" := by
  refine ⟨?_, ?_⟩
  · decide
  · exact (c8_serialization_rules c8G c8Ann).2.2.1
      { id := "a", chunk := some 7, label := "a" } (by decide)

/-! ### Entry traversal (`traverse_entrypoint` / `traverse_entry_chunk`,
operations.rs lines 100-248) -/

/-- The error type `EntrypointTraversalError` of operations.rs. -/
inductive EntrypointTraversalError (I : Type) where
| noEntrypoint (id : I)
| invalidEntrypointChunks (chunks : Finset Nat) (id : I) (expected : Nat)
| graphError
deriving DecidableEq

/-- Node annotations of the module graph, modelled as maps keyed by module id
(the Rust code stores them in each node's type-indexed annotation cell; one
node object exists per id). `chunkAnn` is the `ChunkId` slot, `defaulted`
the `Defaulted` marker slot, and `panicked` records that an `expect` on a
missing annotation fired (the Rust process would abort there). -/
structure EntryTravState (I : Type) where
  chunkAnn : I → Option Nat
  defaulted : I → Bool
  panicked : Bool

/-- `annotate_with_chunk` (operations.rs lines 100-121) acting on the two
annotation maps: with `some c` the chunk annotation of `node` is overwritten
with `c` (the inconsistency branch only emits a warning); with `none` an
already-annotated node is left alone, otherwise the node is marked
`Defaulted` and annotated with the fallback chunk. -/
def annotateWithChunk {I : Type} [DecidableEq I] (chunkAnn : I → Option Nat)
    (defaulted : I → Bool) (node : I) (chunk : Option Nat) (fallback : Nat) :
    (I → Option Nat) × (I → Bool) :=
  match chunk with
  | some c => (fun j => if j = node then some c else chunkAnn j, defaulted)
  | none =>
    if (chunkAnn node).isSome then (chunkAnn, defaulted)
    else (fun j => if j = node then some fallback else chunkAnn j,
          fun j => if j = node then true else defaulted j)

/-- Adjacency view of a concrete graph: the ordered targets of a node's
outgoing edges (`with_edges_iter` over the node found by `query`), empty for
an id with no node. -/
def moduleAdj {I D Lb M : Type} [DecidableEq I] (g : GGraph I D Lb M) :
    I → List I :=
  fun i =>
    match gfind g i with
    | some nd => nd.edges.map (fun e => e.1)
    | none => []

/-- The entry-annotation block of `traverse_entrypoint` (operations.rs lines
136-151): empty chunk set → the initial chunk id; exactly one chunk → that
chunk (`iter().next().unwrap()`, modelled by `finsetPick`, whose `none`
branch is unreachable under `card = 1` — the Rust code unwraps); several
chunks not containing the initial id → `InvalidEntrypointChunks`; otherwise
the initial chunk id. -/
def entryChunkChoice {I : Type} (moduleChunks : Finset Nat)
    (initialChunkId : Nat) (entryId : I) :
    Except (EntrypointTraversalError I) Nat :=
  if moduleChunks = ∅ then .ok initialChunkId
  else if moduleChunks.card = 1 then
    match finsetPick moduleChunks with
    | some c => .ok c
    | none => .ok initialChunkId
  else if initialChunkId ∉ moduleChunks then
    .error (.invalidEntrypointChunks moduleChunks entryId initialChunkId)
  else .ok initialChunkId

/-- The traversal callback of `traverse_entrypoint` (operations.rs lines
156-180): read the origin's chunk annotation (`expect` — panic when absent,
modelled as `panicked` plus halting), look the origin chunk up in the
truncated chunk graph, compute the target's chunk with
`find_possible_chunk_for` on the target's recorded chunk set, annotate the
target, and continue. -/
def entryCallback {I D2 Lb Lb2 M M2 : Type} [DecidableEq I]
    (moduleGraph : GGraph I (Finset Nat) Lb M)
    (truncChunkGraph : GGraph Nat D2 Lb2 M2)
    (importAdj : Nat → List Nat) (importNodes : Finset Nat) :
    TMeta I → I → I → EntryTravState I → EntryTravState I × Instruction Unit :=
  fun _ u v σ =>
    match σ.chunkAnn u with
    | none => ({ σ with panicked := true }, .halt ())
    | some originChunk =>
      let originChunkNode := (gfind truncChunkGraph originChunk).map
        (fun nd => (nd.id, nd.edges.map (fun e => e.1)))
      let targetChunks :=
        match gfind moduleGraph v with
        | some nd => nd.data
        | none => (∅ : Finset Nat)
      let chunk := findPossibleChunkFor targetChunks originChunk
        originChunkNode importAdj importNodes
      let ann := annotateWithChunk σ.chunkAnn σ.defaulted v chunk originChunk
      ({ σ with chunkAnn := ann.1, defaulted := ann.2 }, .cont ())

/-- `traverse_entrypoint` (operations.rs lines 123-183). A missing entry node
is `NoEntrypoint`; the entry-annotation block may fail with
`InvalidEntrypointChunks`, in which case the error is returned before any
traversal; otherwise the entry module is annotated with the chosen chunk and
a DFS Acyclic traversal runs from it with `entryCallback`. The Rust function
returns the traversal log; the chunk annotations live on the shared graph
nodes, so the model returns them alongside the log. -/
def traverseEntrypoint {I D2 Lb Lb2 M M2 : Type} [DecidableEq I]
    (entryId : I) (initialChunkId : Nat)
    (moduleGraph : GGraph I (Finset Nat) Lb M)
    (truncChunkGraph : GGraph Nat D2 Lb2 M2)
    (importAdj : Nat → List Nat) (importNodes : Finset Nat) :
    Except (EntrypointTraversalError I) (TLog I × EntryTravState I) :=
  match gfind moduleGraph entryId with
  | none => .error (.noEntrypoint entryId)
  | some entryNode =>
    match entryChunkChoice entryNode.data initialChunkId entryId with
    | .error e => .error e
    | .ok c0 =>
      let σ0 : EntryTravState I :=
        { chunkAnn := fun j => if j = entryId then some c0 else none,
          defaulted := fun _ => false, panicked := false }
      let adj := moduleAdj moduleGraph
      let final := runTraversal adj .acyclic .dfs
        (entryCallback moduleGraph truncChunkGraph importAdj importNodes)
        (traversalFuel adj (gIds moduleGraph).toFinset entryId)
        (initState adj entryId σ0)
      .ok (final.log, final.st)

/-- Merge of a list of traversal logs into an optional accumulator: `none`
for the empty list, otherwise the left fold of `merge_with`. -/
def mergeLogList {J : Type} [DecidableEq J] (ls : List (TLog J)) :
    Option (TLog J) :=
  ls.foldl (fun acc l =>
    match acc with
    | some old => some (old.mergeWith l)
    | none => some l) none

/-- The per-entry loop of `traverse_entry_chunk` (operations.rs lines
221-243): each entry of the chunk is traversed; a successful log is merged
into the optional accumulator (`merge_with` when one is present, otherwise it
becomes the accumulator) and an error is logged as a warning and skipped. -/
def processEntries {I J E : Type} [DecidableEq J] (entries : List I)
    (run : I → Except E (TLog J)) : Option (TLog J) :=
  entries.foldl (fun acc e =>
    match run e with
    | .ok l =>
      match acc with
      | some old => some (old.mergeWith l)
      | none => some l
    | .error _ => acc) none

theorem processEntries_fold {I J E : Type} [DecidableEq J]
    (run : I → Except E (TLog J)) :
    ∀ (entries : List I) (acc : Option (TLog J)),
      entries.foldl (fun acc e =>
        match run e with
        | .ok l =>
          match acc with
          | some old => some (old.mergeWith l)
          | none => some l
        | .error _ => acc) acc
      = (entries.filterMap (fun e => (run e).toOption)).foldl
          (fun acc l =>
            match acc with
            | some old => some (old.mergeWith l)
            | none => some l) acc := by
  intro entries
  induction entries with
  | nil => intro acc; rfl
  | cons e rest ih =>
    intro acc
    cases hr : run e with
    | ok l => simp [List.foldl_cons, List.filterMap_cons, hr,
        Except.toOption, ih]
    | error err => simp [List.foldl_cons, List.filterMap_cons, hr,
        Except.toOption, ih]

/-- C4: the entry-annotation block of `traverse_entrypoint` annotates with
the initial chunk id when the module's chunk set is empty, with the sole
chunk when the set is a singleton, and with the initial chunk id when the
set has more than one element containing it; in exactly the remaining case
(non-empty, size ≠ 1, initial chunk absent) it yields
`InvalidEntrypointChunks`, which `traverse_entrypoint` returns without
running any traversal; and the per-entry loop of `traverse_entry_chunk`
skips erroring entries while merging the successful logs in order. -/
theorem c4_entrypoint_annotation_cases {I D2 Lb Lb2 M M2 : Type}
    [DecidableEq I] :
    (∀ (initialChunkId : Nat) (entryId : I),
      entryChunkChoice ∅ initialChunkId entryId = .ok initialChunkId)
    ∧ (∀ (x initialChunkId : Nat) (entryId : I),
      entryChunkChoice {x} initialChunkId entryId = .ok x)
    ∧ (∀ (moduleChunks : Finset Nat) (initialChunkId : Nat) (entryId : I),
      1 < moduleChunks.card → initialChunkId ∈ moduleChunks →
      entryChunkChoice moduleChunks initialChunkId entryId
        = .ok initialChunkId)
    ∧ (∀ (moduleChunks : Finset Nat) (initialChunkId : Nat) (entryId : I),
      moduleChunks ≠ ∅ → moduleChunks.card ≠ 1 →
      initialChunkId ∉ moduleChunks →
      entryChunkChoice moduleChunks initialChunkId entryId
        = .error (.invalidEntrypointChunks moduleChunks entryId
            initialChunkId))
    ∧ (∀ (entryId : I) (initialChunkId : Nat)
        (moduleGraph : GGraph I (Finset Nat) Lb M)
        (truncChunkGraph : GGraph Nat D2 Lb2 M2)
        (importAdj : Nat → List Nat) (importNodes : Finset Nat)
        (entryNode : GNode I (Finset Nat) Lb M)
        (e : EntrypointTraversalError I),
      gfind moduleGraph entryId = some entryNode →
      entryChunkChoice entryNode.data initialChunkId entryId = .error e →
      traverseEntrypoint entryId initialChunkId moduleGraph truncChunkGraph
        importAdj importNodes = .error e)
    ∧ (∀ (entries : List I)
        (run : I → Except (EntrypointTraversalError I) (TLog I)),
      processEntries entries run
        = mergeLogList (entries.filterMap (fun e => (run e).toOption))) := by
  refine ⟨?_, ?_, ?_, ?_, ?_, ?_⟩
  · intro init eid
    unfold entryChunkChoice
    rw [if_pos rfl]
  · intro x init eid
    unfold entryChunkChoice
    rw [if_neg (Finset.singleton_ne_empty x),
        if_pos (Finset.card_singleton x)]
    unfold finsetPick
    rw [dif_pos (Finset.singleton_nonempty x)]
    rw [Finset.min'_singleton]
  · intro s init eid hcard hmem
    unfold entryChunkChoice
    rw [if_neg (Finset.ne_empty_of_mem hmem), if_neg (ne_of_gt hcard),
        if_neg (not_not_intro hmem)]
  · intro s init eid hne hcard hnm
    unfold entryChunkChoice
    rw [if_neg hne, if_neg hcard, if_pos hnm]
  · intro eid init mg cg ia iN entryNode e hfind herr
    unfold traverseEntrypoint
    rw [hfind]
    dsimp only
    rw [herr]
  · intro entries run
    unfold processEntries mergeLogList
    exact processEntries_fold run entries none

/-- Witness for C4: the error case and the empty case at concrete inputs —
chunk set {2, 3} with initial chunk 1 yields `InvalidEntrypointChunks`. -/
theorem c4_entrypoint_annotation_cases_witness :
    entryChunkChoice {2, 3} 1 "entry"
      = .error (.invalidEntrypointChunks {2, 3} "entry" 1) :=
  (@c4_entrypoint_annotation_cases String Unit Unit Unit Unit Unit
      _).2.2.2.1 {2, 3} 1 "entry" (by decide) (by decide) (by decide)

/-! ### `paths_to_chunk` (operations.rs lines 279-352) -/

/-- The mutable environment of `paths_to_chunk`: the module-graph node
annotation slots (`ChunkId`, `Defaulted`, and the `Vec<(Id, Id)>` path slot
written by `edge.target.annotate(path)` — written but never read anywhere),
the collected `paths` vector, and the `expect`/`unwrap` panic flag. -/
structure PtcState (I : Type) where
  chunkAnn : I → Option Nat
  defaulted : I → Bool
  nodePathAnn : I → Option (List (I × I))
  paths : List (List (I × I))
  panicked : Bool

/-- The traversal callback of `paths_to_chunk` (operations.rs lines 311-340):
read the origin's chunk annotation (`expect` — panic when absent); build
`path` from the meta's `Vec<(Id, Id)>` annotation (`unwrap_or_default` — the
slot is never written, so the read always defaults) plus the current
(origin, target) pair; attribute the target a chunk with
`find_possible_chunk_for` and `annotate_with_chunk`; if the attributed chunk
is the target chunk, push `path` onto the collected paths and `Backtrack`;
otherwise annotate the target node with `path` and `Continue`. -/
def ptcCallback {I D2 Lb Lb2 M M2 : Type} [DecidableEq I]
    (moduleGraph : GGraph I (Finset Nat) Lb M)
    (chunkGraph : GGraph Nat D2 Lb2 M2)
    (importAdj : Nat → List Nat) (importNodes : Finset Nat)
    (targetChunk : Nat) :
    TMeta I → I → I → PtcState I → PtcState I × Instruction Unit :=
  fun meta u v σ =>
    match σ.chunkAnn u with
    | none => ({ σ with panicked := true }, .halt ())
    | some originChunk =>
      let originChunkNode := (gfind chunkGraph originChunk).map
        (fun nd => (nd.id, nd.edges.map (fun e => e.1)))
      let path := meta.pathAnn ++ [(u, v)]
      let targetChunks :=
        match gfind moduleGraph v with
        | some nd => nd.data
        | none => (∅ : Finset Nat)
      let nodeChunk := findPossibleChunkFor targetChunks originChunk
        originChunkNode importAdj importNodes
      let ann := annotateWithChunk σ.chunkAnn σ.defaulted v nodeChunk
        originChunk
      let σ1 := { σ with chunkAnn := ann.1, defaulted := ann.2 }
      match nodeChunk with
      | some c =>
        if c = targetChunk then
          ({ σ1 with paths := σ1.paths ++ [path] }, .backtrack ())
        else
          ({ σ1 with nodePathAnn := fun j => if j = v then some path
                                             else σ1.nodePathAnn j },
           .cont ())
      | none =>
        ({ σ1 with nodePathAnn := fun j => if j = v then some path
                                           else σ1.nodePathAnn j },
         .cont ())

/-- The traversal loops of `paths_to_chunk` (operations.rs lines 295-342),
over the graphs that `build_graph`/`invert` produced (taken here as inputs).
For each entry chunk id other than the target chunk: look the chunk node up
(`unwrap` — panic when absent), and for each module recorded in the chunk
node's data, look the module node up (`unwrap`), annotate it with the chunk
node's id, and run a DFS Acyclic traversal from it with `ptcCallback`. The
log that `execute` returns is discarded by the source; the node annotations
and the collected paths persist across iterations. -/
def pathsToChunk {I Lb Lb2 M M2 : Type} [DecidableEq I]
    (entryChunkIds : List Nat) (targetChunk : Nat)
    (chunkGraph : GGraph Nat (List I) Lb2 M2)
    (importAdj : Nat → List Nat) (importNodes : Finset Nat)
    (moduleGraph : GGraph I (Finset Nat) Lb M) : PtcState I :=
  let init : PtcState I :=
    { chunkAnn := fun _ => none, defaulted := fun _ => false,
      nodePathAnn := fun _ => none, paths := [], panicked := false }
  let adj := moduleAdj moduleGraph
  let N := (gIds moduleGraph).toFinset
  entryChunkIds.foldl (fun σ rootChunk =>
    if rootChunk = targetChunk then σ
    else
      match gfind chunkGraph rootChunk with
      | none => { σ with panicked := true }
      | some chunkNode =>
        chunkNode.data.foldl (fun σ m =>
          match gfind moduleGraph m with
          | none => { σ with panicked := true }
          | some _ =>
            let σ' := { σ with chunkAnn := fun j =>
              if j = m then some chunkNode.id else σ.chunkAnn j }
            (runTraversal adj .acyclic .dfs
              (ptcCallback moduleGraph chunkGraph importAdj importNodes
                targetChunk)
              (traversalFuel adj N m)
              (initState adj m σ')).st) σ) init

/-- The committed log of `paths_to_chunk` (operations.rs lines 344-348): the
merge of `TraversalLog::from` over the collected paths; the reported graph
is `map_project` — that is, `project_into_graph` — of this log onto the
module graph. -/
def pathsToChunkLog {I : Type} [DecidableEq I] (σ : PtcState I) : TLog I :=
  σ.paths.foldl (fun log p => log.mergeWith (logFromList p)) (TLog.empty I)

/-- The S6 module graph: the dependency chain A → B → C with a further edge
C → D. A is recorded in chunk 1, B in no chunk, C and D in chunk 2 (the
target). -/
def c3ModG : GGraph String (Finset Nat) Unit Unit :=
  [{ id := "A", data := {1}, label := (), edges := [("B", ())] },
   { id := "B", data := ∅, label := (), edges := [("C", ())] },
   { id := "C", data := {2}, label := (), edges := [("D", ())] },
   { id := "D", data := {2}, label := (), edges := [] }]

/-- The S6 chunk graph: entry chunk 1 holds module A, target chunk 2 holds
C and D. -/
def c3ChunkG : GGraph Nat (List String) Unit Unit :=
  [{ id := 1, data := ["A"], label := (), edges := [] },
   { id := 2, data := ["C", "D"], label := (), edges := [] }]

/-- `paths_to_chunk` run on the S6 scenario: entry chunk list [1], target
chunk 2, no import-path edges. -/
def c3Run : PtcState String :=
  pathsToChunk [1] 2 c3ChunkG (fun _ => []) ∅ c3ModG

/-- C3: on the S6 chain A (chunk 1) → B → C (target chunk), the single
committed path is [(B, C)] — one edge, not the claimed [(A, B), (B, C)] —
because the path is rebuilt on every visit from the meta's path annotation,
which no code ever writes, while each visit's extended path is written to
the target node's annotation slot, which no code ever reads. The visit of
(B, C) does return Backtrack: C's out-edge to D is never explored (D gets no
chunk and no path annotation), and the reported projection contains only B
and C, so node A is absent from the reported graph. -/
theorem c3_paths_to_chunk_single_edge_paths :
    c3Run.paths = [[("B", "C")]]
    ∧ c3Run.paths ≠ [[("A", "B"), ("B", "C")]]
    ∧ c3Run.panicked = false
    ∧ c3Run.chunkAnn "D" = none
    ∧ c3Run.nodePathAnn "D" = none
    ∧ c3Run.nodePathAnn "B" = some [("A", "B")]
    ∧ (pathsToChunkLog c3Run).nodes = {"B", "C"}
    ∧ (pathsToChunkLog c3Run).edges = {("B", "C")}
    ∧ gIds (projectIntoGraph (pathsToChunkLog c3Run) c3ModG) = ["B", "C"] := by
  refine ⟨?_, ?_, ?_, ?_, ?_, ?_, ?_, ?_, ?_⟩ <;> decide

end WebpackStats
